import Mathlib

/-!
Verification of the matrix-multiplication engine (naive, blocked, distributed
and Strassen variants, plus the tolerance-based comparison engine) against its
natural-language specification.

The C++ sources are embedded shallowly over exact rational arithmetic:
* `Matrix` mirrors the dense row-major container of `src/matrix.cpp`
  (dimensions plus an entry function; `index(r,c) = r*cols + c` makes the
  row-major buffer a function of the pair `(r, c)`, which is the
  representation used here);
* loops that accumulate through mutable state are embedded as `List.foldl`
  over the same iteration ranges, in the same order;
* functions that throw (`DimensionMismatch`, `NonSquareInput`, ...) return
  `Except MatmulError`.
-/

namespace matmul

/-- Error kinds of the core (spec §7); C++ raises `std::runtime_error`
with a distinguishing message for each. -/
inductive MatmulError where
  | DimensionMismatch
  | NonSquareInput
  | InvalidAlgorithmModeCombination
  | InsufficientSelection
  deriving DecidableEq, Repr

/-- Dense row-major matrix over exact rational scalars.  Mirrors `class
Matrix` of `src/include/matrix.hpp`: `rows_`, `cols_` and the buffer
`data_`, read through `index(r,c) = r*cols + c`; the buffer is embedded as
the function sending `(r, c)` to the stored scalar. -/
structure Matrix where
  rows : ℕ
  cols : ℕ
  data : ℕ → ℕ → ℚ

/-- `Matrix C(m, n)` of the source: constructor zero-fills the buffer. -/
def mkZero (m n : ℕ) : Matrix := ⟨m, n, fun _ _ => 0⟩

/-- `Matrix::operator+` (elementwise; the source's equal-shape guard cannot
fire at any embedded call site, where both operands are quadrants of a
common square split). -/
def Matrix.add (A B : Matrix) : Matrix :=
  ⟨A.rows, A.cols, fun i j => A.data i j + B.data i j⟩

/-- `Matrix::operator-` (elementwise; same remark as `Matrix.add`). -/
def Matrix.sub (A B : Matrix) : Matrix :=
  ⟨A.rows, A.cols, fun i j => A.data i j - B.data i j⟩

/-- `Matrix::submatrix(row_start, col_start, row_end, col_end)`: deep copy of
the half-open region. -/
def Matrix.submatrix (M : Matrix) (row_start col_start row_end col_end : ℕ) : Matrix :=
  ⟨row_end - row_start, col_end - col_start,
   fun i j => M.data (row_start + i) (col_start + j)⟩

/-- `Matrix::set_submatrix(row_start, col_start, sub)`: overwrite the region
`[row_start, row_start+sub.rows) × [col_start, col_start+sub.cols)` in place. -/
def Matrix.set_submatrix (M : Matrix) (row_start col_start : ℕ) (sub : Matrix) : Matrix :=
  ⟨M.rows, M.cols,
   fun i j =>
     if row_start ≤ i ∧ i < row_start + sub.rows ∧ col_start ≤ j ∧ j < col_start + sub.cols
     then sub.data (i - row_start) (j - col_start)
     else M.data i j⟩

/-- Single-cell write `C(i, j) = v`. -/
def Matrix.set (M : Matrix) (r c : ℕ) (v : ℚ) : Matrix :=
  ⟨M.rows, M.cols, fun i j => if i = r ∧ j = c then v else M.data i j⟩

/-- `OptimizationOptions` of `src/include/config.hpp`. -/
structure OptimizationOptions where
  cache_friendly : Bool := false
  use_blocking : Bool := false
  block_size : ℕ := 64
  deriving DecidableEq, Repr

/-- The iteration values of `for (x = a; x < b; ++x)`. -/
def rangeList (a b : ℕ) : List ℕ := (List.range (b - a)).map (a + ·)

/-- The iteration values of `for (x = 0; x < m; x += bs)`: the block origins
`0, bs, 2*bs, ...` below `m` (for `bs ≥ 1`). -/
def blockStarts (m bs : ℕ) : List ℕ := (List.range ((m + bs - 1) / bs)).map (· * bs)

/-- The inner `k` loop of the standard i-j-k multiply:
`sum = 0; for (ki = 0; ki < k; ++ki) sum += A(i,ki) * B(ki,j)`. -/
def dotIJK (A B : Matrix) (i j : ℕ) : ℚ :=
  (List.range A.cols).foldl (fun sum ki => sum + A.data i ki * B.data ki j) 0

/-- The standard i-j-k triple loop of `naive::sequential`
(`src/algo/naive_seq.cpp`, non-blocked branch): each output cell is written
exactly once, with the accumulated inner product. -/
def mulIJK (A B : Matrix) : Matrix :=
  ⟨A.rows, B.cols, fun i j => dotIJK A B i j⟩

/-- Innermost accumulation of the blocked branch:
`sum = C(i,j); for (kk_inner = kk; kk_inner < k_max; ++kk_inner) sum += A(i,kk_inner)*B(kk_inner,j)`. -/
def innerK (A B : Matrix) (i j kk k_max : ℕ) (s : ℚ) : ℚ :=
  (rangeList kk k_max).foldl (fun sum ki => sum + A.data i ki * B.data ki j) s

/-- The `j` loop of one `(ii, jj, kk)` block of the blocked branch. -/
def jLoop (A B C : Matrix) (i jj j_max kk k_max : ℕ) : Matrix :=
  (rangeList jj j_max).foldl (fun C j => C.set i j (innerK A B i j kk k_max (C.data i j))) C

/-- The `i` loop of one `(ii, jj, kk)` block of the blocked branch. -/
def iLoop (A B C : Matrix) (ii i_max jj j_max kk k_max : ℕ) : Matrix :=
  (rangeList ii i_max).foldl (fun C i => jLoop A B C i jj j_max kk k_max) C

/-- Cache-blocked multiply of `naive::sequential` (`src/algo/naive_seq.cpp`,
blocked branch): block-origin loops over `ii`, `jj`, `kk` in that order,
then the per-block `i`, `j`, `kk_inner` loops, accumulating into `C`. -/
def blockedMul (A B : Matrix) (bs : ℕ) : Matrix :=
  (blockStarts A.rows bs).foldl (fun C ii =>
    (blockStarts B.cols bs).foldl (fun C jj =>
      (blockStarts A.cols bs).foldl (fun C kk =>
        iLoop A B C ii (min (ii + bs) A.rows) jj (min (jj + bs) B.cols)
          kk (min (kk + bs) A.cols)) C) C) (mkZero A.rows B.cols)

/-- The exact inner product `Σ_{t<k} A(i,t)·B(t,j)` (the specification's
summation form of the triple loop). -/
def dotSum (A B : Matrix) (i j : ℕ) : ℚ :=
  ∑ t ∈ Finset.range A.cols, A.data i t * B.data t j

theorem foldl_add_eq (f : ℕ → ℚ) (l : List ℕ) :
    ∀ c : ℚ, l.foldl (fun s x => s + f x) c = c + (l.map f).sum := by
  induction l with
  | nil => intro c; simp
  | cons x xs ih => intro c; simp [ih]; ring

theorem sum_map_range (f : ℕ → ℚ) : ∀ n, ((List.range n).map f).sum = ∑ t ∈ Finset.range n, f t := by
  intro n
  induction n with
  | zero => simp
  | succ n ih => rw [List.range_succ, Finset.sum_range_succ, List.map_append, List.sum_append, ih]; simp

theorem dotIJK_eq_dotSum (A B : Matrix) (i j : ℕ) : dotIJK A B i j = dotSum A B i j := by
  rw [dotIJK, foldl_add_eq, zero_add, sum_map_range, dotSum]

theorem mem_rangeList {a b x : ℕ} : x ∈ rangeList a b ↔ a ≤ x ∧ x < b := by
  simp only [rangeList, List.mem_map, List.mem_range]
  constructor
  · rintro ⟨t, ht, rfl⟩; omega
  · rintro ⟨h1, h2⟩; exact ⟨x - a, by omega, by omega⟩

theorem nodup_rangeList (a b : ℕ) : (rangeList a b).Nodup :=
  (List.nodup_range _).map fun x y h => by omega

theorem sum_map_rangeList (f : ℕ → ℚ) (a b : ℕ) :
    ((rangeList a b).map f).sum = ∑ t ∈ Finset.Ico a b, f t := by
  rw [rangeList, List.map_map, sum_map_range, Finset.sum_Ico_eq_sum_range]
  simp [Function.comp]

theorem innerK_eq (A B : Matrix) (i j kk k_max : ℕ) (s : ℚ) :
    innerK A B i j kk k_max s = s + ∑ t ∈ Finset.Ico kk k_max, A.data i t * B.data t j := by
  rw [innerK, foldl_add_eq, sum_map_rangeList]

theorem set_data (M : Matrix) (r c i j : ℕ) (v : ℚ) :
    (M.set r c v).data i j = if i = r ∧ j = c then v else M.data i j := rfl

/-- A fold of single-cell writes over a duplicate-free list of columns of row
`i` changes exactly the written cells; since each cell is written once, the
written value is computed from the cell's original content. -/
theorem foldl_set_data (g : ℕ → ℚ → ℚ) (i p q : ℕ) :
    ∀ (l : List ℕ) (C : Matrix), l.Nodup →
      (l.foldl (fun C j => C.set i j (g j (C.data i j))) C).data p q =
        if p = i ∧ q ∈ l then g q (C.data i q) else C.data p q := by
  intro l
  induction l with
  | nil => intro C _; simp
  | cons j l ih =>
    intro C hl
    obtain ⟨hjl, hl'⟩ := List.nodup_cons.mp hl
    rw [List.foldl_cons, ih _ hl']
    by_cases hpq : p = i ∧ q ∈ l
    · have hqj : q ≠ j := fun h => hjl (h ▸ hpq.2)
      rw [if_pos hpq, if_pos ⟨hpq.1, List.mem_cons_of_mem _ hpq.2⟩, set_data,
        if_neg (fun h => hqj h.2)]
    · rw [if_neg hpq, set_data]
      by_cases hj : p = i ∧ q = j
      · rw [if_pos hj, if_pos ⟨hj.1, hj.2 ▸ List.mem_cons_self j l⟩, hj.2]
      · rw [if_neg (fun h => hj ⟨(by exact h.1 ▸ rfl : p = i), h.2⟩)]
        rw [if_neg]
        rintro ⟨h1, h2⟩
        rcases List.mem_cons.mp h2 with h | h
        · exact hj ⟨h1, h⟩
        · exact hpq ⟨h1, h⟩

theorem jLoop_data (A B C : Matrix) (i jj j_max kk k_max p q : ℕ) :
    (jLoop A B C i jj j_max kk k_max).data p q =
      if p = i ∧ jj ≤ q ∧ q < j_max
      then innerK A B i q kk k_max (C.data i q) else C.data p q := by
  have h := foldl_set_data (fun j v => innerK A B i j kk k_max v) i p q
    (rangeList jj j_max) C (nodup_rangeList _ _)
  exact h.trans (if_congr (and_congr_right fun _ => mem_rangeList) rfl rfl)

theorem foldl_jLoop_data (A B : Matrix) (jj j_max kk k_max p q : ℕ) :
    ∀ (l : List ℕ) (C : Matrix), l.Nodup →
      (l.foldl (fun C i => jLoop A B C i jj j_max kk k_max) C).data p q =
        if p ∈ l ∧ jj ≤ q ∧ q < j_max
        then innerK A B p q kk k_max (C.data p q) else C.data p q := by
  intro l
  induction l with
  | nil => intro C _; simp
  | cons i l ih =>
    intro C hl
    obtain ⟨hil, hl'⟩ := List.nodup_cons.mp hl
    rw [List.foldl_cons, ih _ hl', jLoop_data]
    by_cases hp : p ∈ l ∧ jj ≤ q ∧ q < j_max
    · have hpi : p ≠ i := fun h => hil (h ▸ hp.1)
      rw [if_pos hp, if_neg (fun h => hpi h.1),
        if_pos ⟨List.mem_cons_of_mem _ hp.1, hp.2⟩]
    · rw [if_neg hp]
      by_cases hq : p = i ∧ jj ≤ q ∧ q < j_max
      · rw [if_pos hq, if_pos ⟨hq.1 ▸ List.mem_cons_self i l, hq.2⟩, hq.1]
      · rw [if_neg hq, if_neg]
        rintro ⟨h1, h2⟩
        rcases List.mem_cons.mp h1 with h | h
        · exact hq ⟨h, h2⟩
        · exact hp ⟨h, h2⟩

theorem iLoop_data (A B C : Matrix) (ii i_max jj j_max kk k_max p q : ℕ) :
    (iLoop A B C ii i_max jj j_max kk k_max).data p q =
      if (ii ≤ p ∧ p < i_max) ∧ jj ≤ q ∧ q < j_max
      then innerK A B p q kk k_max (C.data p q) else C.data p q := by
  have h := foldl_jLoop_data A B jj j_max kk k_max p q (rangeList ii i_max) C
    (nodup_rangeList _ _)
  exact h.trans (if_congr (and_congr_left' mem_rangeList) rfl rfl)

/-- Folding matrix transforms that act pointwise on cell `(p, q)` is a scalar
fold on that cell's value. -/
theorem data_foldl_pointwise (F : Matrix → ℕ → Matrix) (G : ℕ → ℚ → ℚ) (p q : ℕ)
    (h : ∀ C b, (F C b).data p q = G b (C.data p q)) :
    ∀ (l : List ℕ) (C : Matrix),
      (l.foldl F C).data p q = l.foldl (fun v b => G b v) (C.data p q) := by
  intro l
  induction l with
  | nil => intro C; rfl
  | cons b l ih => intro C; rw [List.foldl_cons, ih, h, List.foldl_cons]

theorem foldl_id (l : List ℕ) (v : ℚ) : l.foldl (fun v _ => v) v = v := by
  induction l with
  | nil => rfl
  | cons b l ih => rw [List.foldl_cons]; exact ih

theorem foldl_ite_const (P : Prop) [Decidable P] (S : ℕ → ℚ) (l : List ℕ) (v : ℚ) :
    l.foldl (fun v b => if P then v + S b else v) v
      = if P then v + (l.map S).sum else v := by
  by_cases hP : P
  · simp only [if_pos hP]; exact foldl_add_eq S l v
  · simp only [if_neg hP]; exact foldl_id l v

/-- Ceiling coverage of the block-origin loop: `(k + bs - 1) / bs` blocks of
size `bs` cover `[0, k)`. -/
theorem ceil_cover (k bs : ℕ) (hbs : 1 ≤ bs) : min (((k + bs - 1) / bs) * bs) k = k := by
  have h := Nat.div_add_mod (k + bs - 1) bs
  have h2 : (k + bs - 1) % bs < bs := Nat.mod_lt _ (by omega)
  have h3 : bs * ((k + bs - 1) / bs) = ((k + bs - 1) / bs) * bs := Nat.mul_comm _ _
  omega

/-- The `kk`-block segments `[kk, min(kk+bs, k))` for `kk` ranging over the
block origins partition `[0, k)`, so the segment sums add to the full sum. -/
theorem sum_blockStarts (f : ℕ → ℚ) (k bs : ℕ) (hbs : 1 ≤ bs) :
    ((blockStarts k bs).map (fun kk => ∑ t ∈ Finset.Ico kk (min (kk + bs) k), f t)).sum
      = ∑ t ∈ Finset.range k, f t := by
  have hcover : ∀ nb : ℕ,
      (((List.range nb).map (· * bs)).map
          (fun kk => ∑ t ∈ Finset.Ico kk (min (kk + bs) k), f t)).sum
        = ∑ t ∈ Finset.range (min (nb * bs) k), f t := by
    intro nb
    induction nb with
    | zero => simp
    | succ nb ih =>
      rw [List.range_succ, List.map_append, List.map_append, List.sum_append, ih]
      simp only [List.map_cons, List.map_nil, List.sum_cons, List.sum_nil, add_zero]
      by_cases h : nb * bs < k
      · have hmin : min (nb * bs) k = nb * bs := by omega
        have hle : nb * bs ≤ min (nb * bs + bs) k := by omega
        rw [hmin, Nat.succ_mul, Finset.range_eq_Ico]
        exact Finset.sum_Ico_consecutive f (Nat.zero_le (nb * bs)) hle
      · have h1 : min (nb * bs) k = k := by omega
        have h3 : Finset.Ico (nb * bs) (min (nb * bs + bs) k) = ∅ :=
          Finset.Ico_eq_empty (by omega)
        have h4 : min ((nb + 1) * bs) k = k := by rw [Nat.succ_mul]; omega
        rw [h1, h3, h4, Finset.sum_empty, add_zero]
  have := hcover ((k + bs - 1) / bs)
  rw [ceil_cover k bs hbs] at this
  exact this

/-- Scalar effect of folding over block origins `0, bs, ..., (t-1)*bs`: the
value gains `D` exactly when the tracked index `x` falls in the covered
prefix `[0, min(t*bs, n))` (and the invariant condition `P` holds). -/
theorem foldl_blockCover (P : Prop) [Decidable P] (D : ℚ) (x n bs : ℕ) :
    ∀ (t : ℕ) (v : ℚ),
      ((List.range t).map (· * bs)).foldl
          (fun v o => if P ∧ o ≤ x ∧ x < min (o + bs) n then v + D else v) v
        = if P ∧ x < min (t * bs) n then v + D else v := by
  intro t
  induction t with
  | zero =>
    intro v
    simp only [List.range_zero, List.map_nil, List.foldl_nil, Nat.zero_mul,
      Nat.zero_min]
    rw [if_neg (fun h => Nat.not_lt_zero x h.2)]
  | succ t ih =>
    intro v
    rw [List.range_succ, List.map_append, List.foldl_append, ih]
    simp only [List.map_cons, List.map_nil, List.foldl_cons, List.foldl_nil,
      Nat.succ_mul, lt_min_iff]
    by_cases hP : P
    · by_cases h1 : x < t * bs ∧ x < n
      · rw [if_neg (fun h => not_le.mpr h1.1 h.2.1), if_pos ⟨hP, h1⟩,
          if_pos ⟨hP, by omega, h1.2⟩]
      · by_cases h2 : t * bs ≤ x ∧ x < t * bs + bs ∧ x < n
        · rw [if_pos ⟨hP, h2⟩, if_neg (fun h => h1 h.2), if_pos ⟨hP, h2.2⟩]
        · rw [if_neg (fun h => h2 h.2), if_neg (fun h => h1 h.2), if_neg ?_]
          rintro ⟨-, hxb, hxn⟩
          exact h2 ⟨by omega, hxb, hxn⟩
    · simp [hP]

theorem kkFold_data (A B C : Matrix) (bs ii jj p q : ℕ) (hbs : 1 ≤ bs) :
    ((blockStarts A.cols bs).foldl
        (fun C kk => iLoop A B C ii (min (ii + bs) A.rows) jj (min (jj + bs) B.cols)
          kk (min (kk + bs) A.cols)) C).data p q
      = if (ii ≤ p ∧ p < min (ii + bs) A.rows) ∧ jj ≤ q ∧ q < min (jj + bs) B.cols
        then C.data p q + dotSum A B p q else C.data p q := by
  rw [data_foldl_pointwise _
    (fun kk v =>
      if (ii ≤ p ∧ p < min (ii + bs) A.rows) ∧ jj ≤ q ∧ q < min (jj + bs) B.cols
      then v + ∑ t ∈ Finset.Ico kk (min (kk + bs) A.cols), A.data p t * B.data t q
      else v)
    p q (fun C kk => by rw [iLoop_data, innerK_eq]) _ C]
  rw [foldl_ite_const, sum_blockStarts _ _ _ hbs]
  rfl

theorem jjFold_data (A B C : Matrix) (bs ii p q : ℕ) (hbs : 1 ≤ bs) :
    ((blockStarts B.cols bs).foldl
        (fun C jj => (blockStarts A.cols bs).foldl
          (fun C kk => iLoop A B C ii (min (ii + bs) A.rows) jj (min (jj + bs) B.cols)
            kk (min (kk + bs) A.cols)) C) C).data p q
      = if (ii ≤ p ∧ p < min (ii + bs) A.rows) ∧ q < B.cols
        then C.data p q + dotSum A B p q else C.data p q := by
  rw [data_foldl_pointwise _
    (fun o v =>
      if (ii ≤ p ∧ p < min (ii + bs) A.rows) ∧ o ≤ q ∧ q < min (o + bs) B.cols
      then v + dotSum A B p q else v)
    p q (fun C jj => kkFold_data A B C bs ii jj p q hbs) _ C]
  simp only [blockStarts]
  rw [foldl_blockCover (ii ≤ p ∧ p < min (ii + bs) A.rows) (dotSum A B p q) q B.cols bs
    ((B.cols + bs - 1) / bs) (C.data p q), ceil_cover B.cols bs hbs]

theorem blockedMul_data (A B : Matrix) (bs : ℕ) (hbs : 1 ≤ bs) (p q : ℕ) :
    (blockedMul A B bs).data p q
      = if p < A.rows ∧ q < B.cols then dotSum A B p q else 0 := by
  rw [blockedMul]
  rw [data_foldl_pointwise _
    (fun o v =>
      if q < B.cols ∧ o ≤ p ∧ p < min (o + bs) A.rows
      then v + dotSum A B p q else v)
    p q (fun C ii => by
      rw [jjFold_data A B C bs ii p q hbs]
      exact if_congr and_comm rfl rfl) _ _]
  simp only [blockStarts]
  rw [foldl_blockCover (q < B.cols) (dotSum A B p q) p A.rows bs
    ((A.rows + bs - 1) / bs) _, ceil_cover A.rows bs hbs]
  by_cases h : p < A.rows ∧ q < B.cols
  · rw [if_pos ⟨h.2, h.1⟩, if_pos h, mkZero, zero_add]
  · rw [if_neg (fun hh => h ⟨hh.2, hh.1⟩), if_neg h, mkZero]

theorem foldl_rows (F : Matrix → ℕ → Matrix) (h : ∀ C b, (F C b).rows = C.rows) :
    ∀ (l : List ℕ) (C : Matrix), (l.foldl F C).rows = C.rows := by
  intro l
  induction l with
  | nil => intro C; rfl
  | cons b l ih => intro C; rw [List.foldl_cons, ih, h]

theorem foldl_cols (F : Matrix → ℕ → Matrix) (h : ∀ C b, (F C b).cols = C.cols) :
    ∀ (l : List ℕ) (C : Matrix), (l.foldl F C).cols = C.cols := by
  intro l
  induction l with
  | nil => intro C; rfl
  | cons b l ih => intro C; rw [List.foldl_cons, ih, h]

theorem jLoop_rows (A B C : Matrix) (i jj j_max kk k_max : ℕ) :
    (jLoop A B C i jj j_max kk k_max).rows = C.rows := by
  rw [jLoop]
  exact foldl_rows (fun C j => C.set i j (innerK A B i j kk k_max (C.data i j)))
    (fun C j => rfl) _ C

theorem jLoop_cols (A B C : Matrix) (i jj j_max kk k_max : ℕ) :
    (jLoop A B C i jj j_max kk k_max).cols = C.cols := by
  rw [jLoop]
  exact foldl_cols (fun C j => C.set i j (innerK A B i j kk k_max (C.data i j)))
    (fun C j => rfl) _ C

theorem iLoop_rows (A B C : Matrix) (ii i_max jj j_max kk k_max : ℕ) :
    (iLoop A B C ii i_max jj j_max kk k_max).rows = C.rows := by
  rw [iLoop]
  exact foldl_rows _ (fun C i => jLoop_rows A B C i jj j_max kk k_max) _ C

theorem iLoop_cols (A B C : Matrix) (ii i_max jj j_max kk k_max : ℕ) :
    (iLoop A B C ii i_max jj j_max kk k_max).cols = C.cols := by
  rw [iLoop]
  exact foldl_cols _ (fun C i => jLoop_cols A B C i jj j_max kk k_max) _ C

theorem blockedMul_rows (A B : Matrix) (bs : ℕ) : (blockedMul A B bs).rows = A.rows := by
  rw [blockedMul]
  rw [foldl_rows _ (fun C ii => foldl_rows _
    (fun C jj => foldl_rows _ (fun C kk => iLoop_rows A B C _ _ _ _ _ _) _ C) _ C) _ _]
  rfl

theorem blockedMul_cols (A B : Matrix) (bs : ℕ) : (blockedMul A B bs).cols = B.cols := by
  rw [blockedMul]
  rw [foldl_cols _ (fun C ii => foldl_cols _
    (fun C jj => foldl_cols _ (fun C kk => iLoop_cols A B C _ _ _ _ _ _) _ C) _ C) _ _]
  rfl

/-- Body of `naive::sequential` past its dimension guard
(`src/algo/naive_seq.cpp`): the blocked branch when
`opt.cache_friendly && opt.use_blocking`, the standard i-j-k branch
otherwise.  `naive::openmp` and the per-worker loops of `naive::mpi`
(`src/algo/naive_omp.cpp`, `src/algo/naive_mpi.cpp`) execute the same two
branches over their (local) operands. -/
def naiveCore (A B : Matrix) (opt : OptimizationOptions) : Matrix :=
  if opt.cache_friendly && opt.use_blocking then blockedMul A B opt.block_size
  else mulIJK A B

theorem naiveCore_rows (A B : Matrix) (opt : OptimizationOptions) :
    (naiveCore A B opt).rows = A.rows := by
  rw [naiveCore]
  split
  · exact blockedMul_rows A B opt.block_size
  · rfl

theorem naiveCore_cols (A B : Matrix) (opt : OptimizationOptions) :
    (naiveCore A B opt).cols = B.cols := by
  rw [naiveCore]
  split
  · exact blockedMul_cols A B opt.block_size
  · rfl

theorem naiveCore_data (A B : Matrix) (opt : OptimizationOptions)
    (hbs : 1 ≤ opt.block_size) (p q : ℕ) (hp : p < A.rows) (hq : q < B.cols) :
    (naiveCore A B opt).data p q = dotSum A B p q := by
  rw [naiveCore]
  split
  · rw [blockedMul_data A B opt.block_size hbs, if_pos ⟨hp, hq⟩]
  · exact dotIJK_eq_dotSum A B p q

namespace naive

/-- `naive::sequential` of `src/algo/naive_seq.cpp`: dimension guard, then the
blocked or standard triple loop. -/
def sequential (A B : Matrix) (opt : OptimizationOptions) : Except MatmulError Matrix :=
  if A.cols ≠ B.rows then .error .DimensionMismatch else .ok (naiveCore A B opt)

/-- `naive::openmp` of `src/algo/naive_omp.cpp`: the OpenMP worker pool
partitions the disjoint `(i, j)` cells of the same two loop nests, so the
computed values are those of the sequential core. -/
def openmp (A B : Matrix) (opt : OptimizationOptions) (num_threads : ℕ) :
    Except MatmulError Matrix :=
  if A.cols ≠ B.rows then .error .DimensionMismatch else .ok (naiveCore A B opt)

end naive

/-- C2: the naive sequential multiply returns the triple-loop product on
compatible operands and fails with `DimensionMismatch` otherwise. -/
theorem naive_sequential_spec (A B : Matrix) (opt : OptimizationOptions)
    (hbs : 1 ≤ opt.block_size) :
    (A.cols ≠ B.rows → naive.sequential A B opt = .error .DimensionMismatch) ∧
    (A.cols = B.rows → ∃ C, naive.sequential A B opt = .ok C ∧
      C.rows = A.rows ∧ C.cols = B.cols ∧
      ∀ i < A.rows, ∀ j < B.cols,
        C.data i j = ∑ t ∈ Finset.range A.cols, A.data i t * B.data t j) := by
  constructor
  · intro h
    rw [naive.sequential, if_pos h]
  · intro h
    refine ⟨naiveCore A B opt, ?_, naiveCore_rows A B opt, naiveCore_cols A B opt, ?_⟩
    · rw [naive.sequential, if_neg (fun hne => hne h)]
    · intro i hi j hj
      exact naiveCore_data A B opt hbs i j hi hj

/-- Concrete 2×3 example operand. -/
def exA : Matrix := ⟨2, 3, fun i j => (i : ℚ) + 2 * j + 1⟩

/-- Concrete 3×2 example operand. -/
def exB : Matrix := ⟨3, 2, fun i j => (i : ℚ) * j + 2⟩

/-- Concrete 3×3 example operand. -/
def exS : Matrix := ⟨3, 3, fun i j => (i : ℚ) * 3 + j + 1⟩

/-- Default options: no blocking, block size 64. -/
def optPlain : OptimizationOptions := {}

/-- Blocking enabled with block size 2. -/
def optBlocked : OptimizationOptions := ⟨true, true, 2⟩

theorem naive_sequential_spec_witness :
    (exA.cols ≠ exB.rows → naive.sequential exA exB optBlocked = .error .DimensionMismatch) ∧
    (exA.cols = exB.rows → ∃ C, naive.sequential exA exB optBlocked = .ok C ∧
      C.rows = exA.rows ∧ C.cols = exB.cols ∧
      ∀ i < exA.rows, ∀ j < exB.cols,
        C.data i j = ∑ t ∈ Finset.range exA.cols, exA.data i t * exB.data t j) :=
  naive_sequential_spec exA exB optBlocked (by decide)

/-- C3: for every block size ≥ 1 the cache-blocked multiply agrees exactly
with the standard i-j-k multiply on every output cell (exact rational
arithmetic). -/
theorem blocked_eq_ijk (A B : Matrix) (bs : ℕ) (hbs : 1 ≤ bs)
    (hcompat : A.cols = B.rows) :
    (blockedMul A B bs).rows = (mulIJK A B).rows ∧
    (blockedMul A B bs).cols = (mulIJK A B).cols ∧
    ∀ i < A.rows, ∀ j < B.cols,
      (blockedMul A B bs).data i j = (mulIJK A B).data i j := by
  refine ⟨blockedMul_rows A B bs, blockedMul_cols A B bs, ?_⟩
  intro i hi j hj
  rw [blockedMul_data A B bs hbs, if_pos ⟨hi, hj⟩]
  exact (dotIJK_eq_dotSum A B i j).symm

theorem blocked_eq_ijk_witness :
    (blockedMul exA exB 2).rows = (mulIJK exA exB).rows ∧
    (blockedMul exA exB 2).cols = (mulIJK exA exB).cols ∧
    ∀ i < exA.rows, ∀ j < exB.cols,
      (blockedMul exA exB 2).data i j = (mulIJK exA exB).data i j :=
  blocked_eq_ijk exA exB 2 (by decide) (by decide)

/-- Row partition of the distributed variants (`src/algo/naive_mpi.cpp`
lines 22-24 and 84-88, repeated verbatim in `strassen_mpi.cpp` and the
hybrid variants): `rows_per_proc + (rank < remainder ? 1 : 0)`. -/
def local_rows (totalRows workerCount r : ℕ) : ℕ :=
  totalRows / workerCount + (if r < totalRows % workerCount then 1 else 0)

/-- `row_offset = rank * rows_per_proc + min(rank, remainder)` of the same
source lines. -/
def row_offset (totalRows workerCount r : ℕ) : ℕ :=
  r * (totalRows / workerCount) + min r (totalRows % workerCount)

theorem row_offset_zero (T P : ℕ) : row_offset T P 0 = 0 := by
  simp [row_offset]

theorem row_offset_succ (T P r : ℕ) :
    row_offset T P (r + 1) = row_offset T P r + local_rows T P r := by
  rw [row_offset, row_offset, local_rows, Nat.succ_mul]
  split <;> omega

theorem sum_ite_lt (m : ℕ) :
    ∀ P, ∑ r ∈ Finset.range P, (if r < m then (1 : ℕ) else 0) = min m P := by
  intro P
  induction P with
  | zero => simp
  | succ P ih =>
    rw [Finset.sum_range_succ, ih]
    split <;> omega

theorem sum_local_rows (T P : ℕ) (hP : 1 ≤ P) :
    ∑ r ∈ Finset.range P, local_rows T P r = T := by
  simp only [local_rows]
  rw [Finset.sum_add_distrib, Finset.sum_const, Finset.card_range, smul_eq_mul,
    sum_ite_lt]
  have h2 := Nat.div_add_mod T P
  have h3 : T % P < P := Nat.mod_lt _ (by omega)
  omega

theorem row_offset_eq_sum (T P : ℕ) :
    ∀ t, row_offset T P t = ∑ r ∈ Finset.range t, local_rows T P r := by
  intro t
  induction t with
  | zero => rw [row_offset_zero]; simp
  | succ t ih => rw [row_offset_succ, ih, Finset.sum_range_succ]

theorem row_offset_last (T P : ℕ) (hP : 1 ≤ P) : row_offset T P P = T := by
  rw [row_offset_eq_sum, sum_local_rows T P hP]

theorem row_offset_mono (T P : ℕ) {r s : ℕ} (h : r ≤ s) :
    row_offset T P r ≤ row_offset T P s := by
  induction s, h using Nat.le_induction with
  | base => exact le_refl _
  | succ s hs ih => rw [row_offset_succ]; omega

theorem partition_exists (T P : ℕ) :
    ∀ t (i : ℕ), i < row_offset T P t →
      ∃ r, r < t ∧ row_offset T P r ≤ i ∧ i < row_offset T P r + local_rows T P r := by
  intro t
  induction t with
  | zero => intro i hi; rw [row_offset_zero] at hi; omega
  | succ t ih =>
    intro i hi
    by_cases h : i < row_offset T P t
    · obtain ⟨r, hr, h1, h2⟩ := ih i h
      exact ⟨r, by omega, h1, h2⟩
    · exact ⟨t, by omega, by omega, by rw [row_offset_succ] at hi; omega⟩

/-- C5: the per-worker row ranges are contiguous (`offset(r+1) =
offset(r) + localRows(r)`, starting at 0), their lengths sum to
`totalRows`, and every row index below `totalRows` belongs to exactly one
worker's range (no gap, no overlap). -/
theorem partition_spec (totalRows workerCount : ℕ) (hP : 1 ≤ workerCount) :
    row_offset totalRows workerCount 0 = 0 ∧
    (∀ r, row_offset totalRows workerCount (r + 1)
        = row_offset totalRows workerCount r + local_rows totalRows workerCount r) ∧
    (∑ r ∈ Finset.range workerCount, local_rows totalRows workerCount r) = totalRows ∧
    (∀ r s, r < s →
      row_offset totalRows workerCount r + local_rows totalRows workerCount r
        ≤ row_offset totalRows workerCount s) ∧
    (∀ i < totalRows, ∃! r, r < workerCount ∧
      row_offset totalRows workerCount r ≤ i ∧
      i < row_offset totalRows workerCount r + local_rows totalRows workerCount r) := by
  have hdisj : ∀ r s, r < s →
      row_offset totalRows workerCount r + local_rows totalRows workerCount r
        ≤ row_offset totalRows workerCount s := by
    intro r s hrs
    calc row_offset totalRows workerCount r + local_rows totalRows workerCount r
        = row_offset totalRows workerCount (r + 1) := (row_offset_succ _ _ r).symm
      _ ≤ row_offset totalRows workerCount s := row_offset_mono _ _ hrs
  refine ⟨row_offset_zero _ _, row_offset_succ _ _, sum_local_rows _ _ hP, hdisj, ?_⟩
  intro i hi
  have hcov : i < row_offset totalRows workerCount workerCount := by
    rw [row_offset_last _ _ hP]; exact hi
  obtain ⟨r, hr, h1, h2⟩ := partition_exists totalRows workerCount workerCount i hcov
  refine ⟨r, ⟨hr, h1, h2⟩, ?_⟩
  intro s ⟨hs, h3, h4⟩
  by_contra hne
  rcases Nat.lt_or_ge s r with h | h
  · have := hdisj s r h
    omega
  · have hlt : r < s := by omega
    have := hdisj r s hlt
    omega

theorem add_data (A B : Matrix) (i j : ℕ) :
    (A.add B).data i j = A.data i j + B.data i j := rfl

theorem sub_data (A B : Matrix) (i j : ℕ) :
    (A.sub B).data i j = A.data i j - B.data i j := rfl

theorem submatrix_data (M : Matrix) (r0 c0 r1 c1 i j : ℕ) :
    (M.submatrix r0 c0 r1 c1).data i j = M.data (r0 + i) (c0 + j) := rfl

/-- `STRASSEN_OMP_THRESHOLD` of `src/algo/strassen_omp.cpp`. -/
def STRASSEN_OMP_THRESHOLD : ℕ := 64

/-- `strassen_recursive_omp` of `src/algo/strassen_omp.cpp` (lines 12-101),
with the entry size `n = A.rows()` passed explicitly.  Base case at
`n ≤ 64` falls to the naive loops (`naive::openmp`, whose computed values
are the sequential core's); an odd `n` is zero-padded to `n+1`, recursed,
and cropped back; an even `n` is split into quadrants, the seven Strassen
products are recursed at `num_threads/7 + 1`, and the four result
quadrants are written into a fresh `n×n` matrix. -/
def strassenGo (n : ℕ) (A B : Matrix) (opt : OptimizationOptions)
    (num_threads : ℕ) : Matrix :=
  if _h64 : n ≤ STRASSEN_OMP_THRESHOLD then naiveCore A B opt
  else if _hodd : n % 2 = 1 then
    let Cp := strassenGo (n + 1)
      ⟨n + 1, n + 1, fun i j => if i < n ∧ j < n then A.data i j else 0⟩
      ⟨n + 1, n + 1, fun i j => if i < n ∧ j < n then B.data i j else 0⟩
      opt num_threads
    ⟨n, n, fun i j => Cp.data i j⟩
  else
    let M1 := strassenGo (n / 2)
      ((A.submatrix 0 0 (n / 2) (n / 2)).add (A.submatrix (n / 2) (n / 2) n n))
      ((B.submatrix 0 0 (n / 2) (n / 2)).add (B.submatrix (n / 2) (n / 2) n n))
      opt (num_threads / 7 + 1)
    let M2 := strassenGo (n / 2)
      ((A.submatrix (n / 2) 0 n (n / 2)).add (A.submatrix (n / 2) (n / 2) n n))
      (B.submatrix 0 0 (n / 2) (n / 2)) opt (num_threads / 7 + 1)
    let M3 := strassenGo (n / 2)
      (A.submatrix 0 0 (n / 2) (n / 2))
      ((B.submatrix 0 (n / 2) (n / 2) n).sub (B.submatrix (n / 2) (n / 2) n n))
      opt (num_threads / 7 + 1)
    let M4 := strassenGo (n / 2)
      (A.submatrix (n / 2) (n / 2) n n)
      ((B.submatrix (n / 2) 0 n (n / 2)).sub (B.submatrix 0 0 (n / 2) (n / 2)))
      opt (num_threads / 7 + 1)
    let M5 := strassenGo (n / 2)
      ((A.submatrix 0 0 (n / 2) (n / 2)).add (A.submatrix 0 (n / 2) (n / 2) n))
      (B.submatrix (n / 2) (n / 2) n n) opt (num_threads / 7 + 1)
    let M6 := strassenGo (n / 2)
      ((A.submatrix (n / 2) 0 n (n / 2)).sub (A.submatrix 0 0 (n / 2) (n / 2)))
      ((B.submatrix 0 0 (n / 2) (n / 2)).add (B.submatrix 0 (n / 2) (n / 2) n))
      opt (num_threads / 7 + 1)
    let M7 := strassenGo (n / 2)
      ((A.submatrix 0 (n / 2) (n / 2) n).sub (A.submatrix (n / 2) (n / 2) n n))
      ((B.submatrix (n / 2) 0 n (n / 2)).add (B.submatrix (n / 2) (n / 2) n n))
      opt (num_threads / 7 + 1)
    let C11 := ((M1.add M4).sub M5).add M7
    let C12 := M3.add M5
    let C21 := M2.add M4
    let C22 := ((M1.sub M2).add M3).add M6
    ((((mkZero n n).set_submatrix 0 0 C11).set_submatrix 0 (n / 2) C12).set_submatrix
      (n / 2) 0 C21).set_submatrix (n / 2) (n / 2) C22
termination_by n + 3 * (n % 2)
decreasing_by
  all_goals simp only [STRASSEN_OMP_THRESHOLD] at _h64
  all_goals omega

theorem set_submatrix_data (M sub : Matrix) (r0 c0 i j : ℕ) :
    (M.set_submatrix r0 c0 sub).data i j =
      if r0 ≤ i ∧ i < r0 + sub.rows ∧ c0 ≤ j ∧ j < c0 + sub.cols
      then sub.data (i - r0) (j - c0) else M.data i j := rfl

theorem sum_range_split (f : ℕ → ℚ) (h : ℕ) :
    ∑ t ∈ Finset.range (h + h), f t
      = ∑ t ∈ Finset.range h, f t + ∑ t ∈ Finset.range h, f (h + t) := by
  rw [Finset.range_eq_Ico,
    ← Finset.sum_Ico_consecutive f (Nat.zero_le h) (by omega : h ≤ h + h),
    ← Finset.range_eq_Ico, Finset.sum_Ico_eq_sum_range, Nat.add_sub_cancel]

/-- Reading a cell of the four-quadrant assembly
(`C.set_submatrix` applied at `(0,0)`, `(0,half)`, `(half,0)`,
`(half,half)` to a zeroed `n×n` result, as in the even branch of the
Strassen recursion): each in-bounds cell comes from the quadrant that
contains it. -/
theorem assemble_data (h n : ℕ) (C11 C12 C21 C22 : Matrix)
    (h11r : C11.rows = h) (h11c : C11.cols = h)
    (h12r : C12.rows = h) (h12c : C12.cols = h)
    (h21r : C21.rows = h) (h21c : C21.cols = h)
    (h22r : C22.rows = h) (h22c : C22.cols = h)
    (hn : h + h = n) (i j : ℕ) (hi : i < n) (hj : j < n) :
    (((((mkZero n n).set_submatrix 0 0 C11).set_submatrix 0 h C12).set_submatrix
        h 0 C21).set_submatrix h h C22).data i j
      = if i < h then (if j < h then C11.data i j else C12.data i (j - h))
        else (if j < h then C21.data (i - h) j else C22.data (i - h) (j - h)) := by
  rw [set_submatrix_data, set_submatrix_data, set_submatrix_data, set_submatrix_data,
    h11r, h11c, h12r, h12c, h21r, h21c, h22r, h22c]
  split_ifs <;> first | rfl | (exfalso; omega)

set_option maxHeartbeats 1600000 in
/-- Correctness of the Strassen recursion: on square `n×n` operands it
computes the triple-loop product, at every size and every thread budget.
The induction is on an upper bound for the recursion measure. -/
theorem strassenGo_spec (fuelM : ℕ) :
    ∀ (n : ℕ) (A B : Matrix) (opt : OptimizationOptions) (nt : ℕ),
      n + 3 * (n % 2) ≤ fuelM →
      A.rows = n → A.cols = n → B.rows = n → B.cols = n → 1 ≤ opt.block_size →
      (strassenGo n A B opt nt).rows = n ∧ (strassenGo n A B opt nt).cols = n ∧
      ∀ i < n, ∀ j < n,
        (strassenGo n A B opt nt).data i j
          = ∑ t ∈ Finset.range n, A.data i t * B.data t j := by
  induction fuelM using Nat.strong_induction_on with
  | _ fuelM ih =>
  intro n A B opt nt hm hA1 hA2 hB1 hB2 hbs
  rw [strassenGo]
  by_cases h64 : n ≤ STRASSEN_OMP_THRESHOLD
  · rw [dif_pos h64]
    refine ⟨by rw [naiveCore_rows, hA1], by rw [naiveCore_cols, hB2], ?_⟩
    intro i hi j hj
    rw [naiveCore_data A B opt hbs i j (by omega) (by omega), dotSum, hA2]
  · rw [dif_neg h64]
    have h64' : 64 < n := by
      simp only [STRASSEN_OMP_THRESHOLD] at h64
      omega
    by_cases hodd : n % 2 = 1
    · rw [dif_pos hodd]
      have hCp := ih (n + 1) (by omega) (n + 1)
        ⟨n + 1, n + 1, fun i j => if i < n ∧ j < n then A.data i j else 0⟩
        ⟨n + 1, n + 1, fun i j => if i < n ∧ j < n then B.data i j else 0⟩
        opt nt (by omega) rfl rfl rfl rfl hbs
      refine ⟨rfl, rfl, ?_⟩
      intro i hi j hj
      have he := hCp.2.2 i (by omega) j (by omega)
      simp only [] at he
      show (strassenGo (n + 1)
        ⟨n + 1, n + 1, fun i j => if i < n ∧ j < n then A.data i j else 0⟩
        ⟨n + 1, n + 1, fun i j => if i < n ∧ j < n then B.data i j else 0⟩
        opt nt).data i j = ∑ t ∈ Finset.range n, A.data i t * B.data t j
      rw [he, Finset.sum_range_succ]
      have hlast :
          (if i < n ∧ n < n then A.data i n else 0)
            * (if n < n ∧ j < n then B.data n j else 0) = 0 := by
        rw [if_neg (fun h => lt_irrefl n h.2), if_neg (fun h => lt_irrefl n h.1),
          mul_zero]
      rw [hlast, add_zero]
      refine Finset.sum_congr rfl fun t ht => ?_
      have ht' : t < n := Finset.mem_range.mp ht
      rw [if_pos ⟨hi, ht'⟩, if_pos ⟨ht', hj⟩]
    · rw [dif_neg hodd]
      simp only []
      have hn0 : n % 2 = 0 := by omega
      have hh : n / 2 + n / 2 = n := by omega
      have hnd : n - n / 2 = n / 2 := by omega
      refine ⟨rfl, rfl, ?_⟩
      intro i hi j hj
      have hsplit : ∀ f : ℕ → ℚ,
          ∑ t ∈ Finset.range n, f t
            = ∑ t ∈ Finset.range (n / 2), f t
              + ∑ t ∈ Finset.range (n / 2), f (n / 2 + t) := by
        intro f
        conv_lhs => rw [← hh]
        exact sum_range_split f (n / 2)
      have har1 : n / 2 ≤ j → j - n / 2 < n / 2 ∧ n / 2 + (j - n / 2) = j :=
        fun h => ⟨by omega, by omega⟩
      have har2 : n / 2 ≤ i → i - n / 2 < n / 2 ∧ n / 2 + (i - n / 2) = i :=
        fun h => ⟨by omega, by omega⟩
      have hrec : ∀ (X Y : Matrix),
          X.rows = n / 2 → X.cols = n / 2 → Y.rows = n / 2 → Y.cols = n / 2 →
          (strassenGo (n / 2) X Y opt (nt / 7 + 1)).rows = n / 2 ∧
          (strassenGo (n / 2) X Y opt (nt / 7 + 1)).cols = n / 2 ∧
          ∀ i < n / 2, ∀ j < n / 2,
            (strassenGo (n / 2) X Y opt (nt / 7 + 1)).data i j
              = ∑ t ∈ Finset.range (n / 2), X.data i t * Y.data t j :=
        fun X Y h1 h2 h3 h4 =>
          ih (n / 2 + 3 * (n / 2 % 2)) (by omega) (n / 2) X Y opt (nt / 7 + 1)
            (le_refl _) h1 h2 h3 h4 hbs
      have hM1 := hrec ((A.submatrix 0 0 (n / 2) (n / 2)).add
          (A.submatrix (n / 2) (n / 2) n n))
        ((B.submatrix 0 0 (n / 2) (n / 2)).add (B.submatrix (n / 2) (n / 2) n n))
        rfl rfl rfl rfl
      have hM2 := hrec ((A.submatrix (n / 2) 0 n (n / 2)).add
          (A.submatrix (n / 2) (n / 2) n n))
        (B.submatrix 0 0 (n / 2) (n / 2))
        hnd rfl rfl rfl
      have hM3 := hrec (A.submatrix 0 0 (n / 2) (n / 2))
        ((B.submatrix 0 (n / 2) (n / 2) n).sub (B.submatrix (n / 2) (n / 2) n n))
        rfl rfl rfl hnd
      have hM4 := hrec (A.submatrix (n / 2) (n / 2) n n)
        ((B.submatrix (n / 2) 0 n (n / 2)).sub (B.submatrix 0 0 (n / 2) (n / 2)))
        hnd hnd hnd rfl
      have hM5 := hrec ((A.submatrix 0 0 (n / 2) (n / 2)).add
          (A.submatrix 0 (n / 2) (n / 2) n))
        (B.submatrix (n / 2) (n / 2) n n)
        rfl rfl hnd hnd
      have hM6 := hrec ((A.submatrix (n / 2) 0 n (n / 2)).sub
          (A.submatrix 0 0 (n / 2) (n / 2)))
        ((B.submatrix 0 0 (n / 2) (n / 2)).add (B.submatrix 0 (n / 2) (n / 2) n))
        hnd rfl rfl rfl
      have hM7 := hrec ((A.submatrix 0 (n / 2) (n / 2) n).sub
          (A.submatrix (n / 2) (n / 2) n n))
        ((B.submatrix (n / 2) 0 n (n / 2)).add (B.submatrix (n / 2) (n / 2) n n))
        rfl hnd hnd rfl
      set M1 := strassenGo (n / 2)
        ((A.submatrix 0 0 (n / 2) (n / 2)).add (A.submatrix (n / 2) (n / 2) n n))
        ((B.submatrix 0 0 (n / 2) (n / 2)).add (B.submatrix (n / 2) (n / 2) n n))
        opt (nt / 7 + 1) with hM1d
      set M2 := strassenGo (n / 2)
        ((A.submatrix (n / 2) 0 n (n / 2)).add (A.submatrix (n / 2) (n / 2) n n))
        (B.submatrix 0 0 (n / 2) (n / 2)) opt (nt / 7 + 1) with hM2d
      set M3 := strassenGo (n / 2)
        (A.submatrix 0 0 (n / 2) (n / 2))
        ((B.submatrix 0 (n / 2) (n / 2) n).sub (B.submatrix (n / 2) (n / 2) n n))
        opt (nt / 7 + 1) with hM3d
      set M4 := strassenGo (n / 2)
        (A.submatrix (n / 2) (n / 2) n n)
        ((B.submatrix (n / 2) 0 n (n / 2)).sub (B.submatrix 0 0 (n / 2) (n / 2)))
        opt (nt / 7 + 1) with hM4d
      set M5 := strassenGo (n / 2)
        ((A.submatrix 0 0 (n / 2) (n / 2)).add (A.submatrix 0 (n / 2) (n / 2) n))
        (B.submatrix (n / 2) (n / 2) n n) opt (nt / 7 + 1) with hM5d
      set M6 := strassenGo (n / 2)
        ((A.submatrix (n / 2) 0 n (n / 2)).sub (A.submatrix 0 0 (n / 2) (n / 2)))
        ((B.submatrix 0 0 (n / 2) (n / 2)).add (B.submatrix 0 (n / 2) (n / 2) n))
        opt (nt / 7 + 1) with hM6d
      set M7 := strassenGo (n / 2)
        ((A.submatrix 0 (n / 2) (n / 2) n).sub (A.submatrix (n / 2) (n / 2) n n))
        ((B.submatrix (n / 2) 0 n (n / 2)).add (B.submatrix (n / 2) (n / 2) n n))
        opt (nt / 7 + 1) with hM7d
      clear hM1d hM2d hM3d hM4d hM5d hM6d hM7d
      clear_value M1 M2 M3 M4 M5 M6 M7
      have hC11r : (((M1.add M4).sub M5).add M7).rows = n / 2 := hM1.1
      have hC11c : (((M1.add M4).sub M5).add M7).cols = n / 2 := hM1.2.1
      have hC12r : (M3.add M5).rows = n / 2 := hM3.1
      have hC12c : (M3.add M5).cols = n / 2 := hM3.2.1
      have hC21r : (M2.add M4).rows = n / 2 := hM2.1
      have hC21c : (M2.add M4).cols = n / 2 := hM2.2.1
      have hC22r : (((M1.sub M2).add M3).add M6).rows = n / 2 := hM1.1
      have hC22c : (((M1.sub M2).add M3).add M6).cols = n / 2 := hM1.2.1
      have hasm := assemble_data (n / 2) n _ _ _ _
        hC11r hC11c hC12r hC12c hC21r hC21c hC22r hC22c hh i j hi hj
      rw [hasm, hsplit (fun t => A.data i t * B.data t j)]
      rcases Nat.lt_or_ge i (n / 2) with hi2 | hi2 <;>
        rcases Nat.lt_or_ge j (n / 2) with hj2 | hj2
      · -- C11 region: i < n/2, j < n/2
        rw [if_pos hi2, if_pos hj2, add_data, sub_data, add_data,
          hM1.2.2 i hi2 j hj2, hM4.2.2 i hi2 j hj2, hM5.2.2 i hi2 j hj2,
          hM7.2.2 i hi2 j hj2]
        simp only [add_data, sub_data, submatrix_data, Nat.zero_add]
        rw [← Finset.sum_add_distrib, ← Finset.sum_sub_distrib, ← Finset.sum_add_distrib,
          ← Finset.sum_add_distrib]
        exact Finset.sum_congr rfl fun t ht => by ring
      · -- C12 region: i < n/2, j ≥ n/2
        rw [if_pos hi2, if_neg (not_lt.mpr hj2), add_data,
          hM3.2.2 i hi2 (j - n / 2) (har1 hj2).1, hM5.2.2 i hi2 (j - n / 2) (har1 hj2).1]
        simp only [add_data, sub_data, submatrix_data, Nat.zero_add]
        rw [(har1 hj2).2]
        rw [← Finset.sum_add_distrib, ← Finset.sum_add_distrib]
        exact Finset.sum_congr rfl fun t ht => by ring
      · -- C21 region: i ≥ n/2, j < n/2
        rw [if_neg (not_lt.mpr hi2), if_pos hj2, add_data,
          hM2.2.2 (i - n / 2) (har2 hi2).1 j hj2, hM4.2.2 (i - n / 2) (har2 hi2).1 j hj2]
        simp only [add_data, sub_data, submatrix_data, Nat.zero_add]
        rw [(har2 hi2).2]
        rw [← Finset.sum_add_distrib, ← Finset.sum_add_distrib]
        exact Finset.sum_congr rfl fun t ht => by ring
      · -- C22 region: i ≥ n/2, j ≥ n/2
        rw [if_neg (not_lt.mpr hi2), if_neg (not_lt.mpr hj2), add_data, add_data, sub_data,
          hM1.2.2 (i - n / 2) (har2 hi2).1 (j - n / 2) (har1 hj2).1,
          hM2.2.2 (i - n / 2) (har2 hi2).1 (j - n / 2) (har1 hj2).1,
          hM3.2.2 (i - n / 2) (har2 hi2).1 (j - n / 2) (har1 hj2).1,
          hM6.2.2 (i - n / 2) (har2 hi2).1 (j - n / 2) (har1 hj2).1]
        simp only [add_data, sub_data, submatrix_data, Nat.zero_add]
        rw [(har2 hi2).2, (har1 hj2).2]
        rw [← Finset.sum_sub_distrib, ← Finset.sum_add_distrib, ← Finset.sum_add_distrib,
          ← Finset.sum_add_distrib]
        exact Finset.sum_congr rfl fun t ht => by ring

/-- The local slice of `A` built by rank `r`
(`src/algo/naive_mpi.cpp` lines 31-36): `A_local(i, j) = A(row_offset + i, j)`. -/
def localSliceA (A : Matrix) (worldSize rank : ℕ) : Matrix :=
  ⟨local_rows A.rows worldSize rank, A.cols,
   fun i j => A.data (row_offset A.rows worldSize rank + i) j⟩

/-- `MPI_Allgatherv` reconstruction (`src/algo/naive_mpi.cpp` lines 77-93):
rank `r`'s `local_rows(r)*n` elements land at element displacement
`row_offset(r)*n` of the row-major result buffer, i.e. occupy rows
`[row_offset(r), row_offset(r) + local_rows(r))` of the zero-initialized
`m×n` result. -/
def gatherSlices (m n : ℕ) (P : ℕ) (slice : ℕ → Matrix) : Matrix :=
  (List.range P).foldl
    (fun C r => C.set_submatrix (row_offset m P r) 0 (slice r)) (mkZero m n)

theorem gatherSlices_rows (m n P : ℕ) (slice : ℕ → Matrix) :
    (gatherSlices m n P slice).rows = m := by
  rw [gatherSlices]
  rw [foldl_rows (fun C r => C.set_submatrix (row_offset m P r) 0 (slice r))
    (fun C r => rfl) _ _]
  rfl

theorem gatherSlices_cols (m n P : ℕ) (slice : ℕ → Matrix) :
    (gatherSlices m n P slice).cols = n := by
  rw [gatherSlices]
  rw [foldl_cols (fun C r => C.set_submatrix (row_offset m P r) 0 (slice r))
    (fun C r => rfl) _ _]
  rfl

theorem gatherSlices_inv (m n P : ℕ) (slice : ℕ → Matrix) (val : ℕ → ℕ → ℚ)
    (hrows : ∀ r, (slice r).rows = local_rows m P r)
    (hcols : ∀ r, (slice r).cols = n)
    (hval : ∀ r i j, i < local_rows m P r → j < n →
      (slice r).data i j = val (row_offset m P r + i) j) :
    ∀ t i j, j < n →
      (((List.range t).foldl
          (fun C r => C.set_submatrix (row_offset m P r) 0 (slice r))
          (mkZero m n)).data i j)
        = if i < row_offset m P t then val i j else 0 := by
  intro t
  induction t with
  | zero =>
    intro i j hj
    rw [row_offset_zero]
    simp [mkZero]
  | succ t ih =>
    intro i j hj
    rw [List.range_succ, List.foldl_append, List.foldl_cons, List.foldl_nil,
      set_submatrix_data, hrows, hcols, row_offset_succ]
    by_cases h : row_offset m P t ≤ i ∧ i < row_offset m P t + local_rows m P t ∧
        0 ≤ j ∧ j < 0 + n
    · rw [if_pos h, hval t _ _ (by omega) (by omega),
        if_pos (by omega), Nat.sub_zero]
      congr 1
      omega
    · rw [if_neg h, ih i j hj]
      have hnot : ¬ (row_offset m P t ≤ i ∧ i < row_offset m P t + local_rows m P t) :=
        fun hc => h ⟨hc.1, hc.2, by omega, by omega⟩
      by_cases h2 : i < row_offset m P t
      · rw [if_pos h2, if_pos (by omega)]
      · rw [if_neg h2, if_neg (by omega)]

namespace naive

/-- `naive::mpi` of `src/algo/naive_mpi.cpp` as seen by every process after
the final all-gather: the dimension guard, the broadcast `B_local = B`, the
per-rank local compute (same blocked/standard branches as the sequential
core, over the rank's row slice of `A`), and the gathered `m×n` result. -/
def mpi (worldSize : ℕ) (A B : Matrix) (opt : OptimizationOptions) :
    Except MatmulError Matrix :=
  if A.cols ≠ B.rows then .error .DimensionMismatch
  else .ok (gatherSlices A.rows B.cols worldSize
    (fun r => naiveCore (localSliceA A worldSize r) B opt))

/-- Modelled from the spec: `naive::hybrid` is declared in
`src/include/algorithms.hpp` and dispatched from `src/src/main.cpp`, but its
definition is not among the sources.  Spec §4.2: "Hybrid variant:
distributed row-partition wrapping a shared-parallel local computation per
worker" — the shared-parallel local loops compute the same values as the
distributed variant's local loops, so the gathered result is that of the
distributed variant. -/
def hybrid (worldSize : ℕ) (A B : Matrix) (opt : OptimizationOptions)
    (num_threads : ℕ) : Except MatmulError Matrix :=
  mpi worldSize A B opt

end naive

/-- C4: for every worker count `P ≥ 1` and compatible operands, the gathered
distributed result agrees with the single-process naive multiply cell for
cell. -/
theorem naive_mpi_eq_sequential (P : ℕ) (A B : Matrix) (opt : OptimizationOptions)
    (hP : 1 ≤ P) (hcompat : A.cols = B.rows) (hbs : 1 ≤ opt.block_size) :
    ∃ C, naive.mpi P A B opt = .ok C ∧
      C.rows = A.rows ∧ C.cols = B.cols ∧
      ∀ i < A.rows, ∀ j < B.cols, C.data i j = (naiveCore A B opt).data i j := by
  refine ⟨gatherSlices A.rows B.cols P
    (fun r => naiveCore (localSliceA A P r) B opt), ?_,
    gatherSlices_rows _ _ _ _, gatherSlices_cols _ _ _ _, ?_⟩
  · rw [naive.mpi, if_neg (fun hne => hne hcompat)]
  · intro i hi j hj
    have hval : ∀ r ii jj, ii < local_rows A.rows P r → jj < B.cols →
        (naiveCore (localSliceA A P r) B opt).data ii jj
          = dotSum A B (row_offset A.rows P r + ii) jj := by
      intro r ii jj hii hjj
      rw [naiveCore_data (localSliceA A P r) B opt hbs ii jj hii hjj]
      rfl
    have h := gatherSlices_inv A.rows B.cols P
      (fun r => naiveCore (localSliceA A P r) B opt) (dotSum A B)
      (fun r => naiveCore_rows _ _ _) (fun r => naiveCore_cols _ _ _)
      hval P i j hj
    rw [gatherSlices, h, if_pos (by rw [row_offset_last _ _ hP]; exact hi),
      naiveCore_data A B opt hbs i j hi hj]

theorem naive_mpi_eq_sequential_witness :
    ∃ C, naive.mpi 2 exA exB optPlain = .ok C ∧
      C.rows = exA.rows ∧ C.cols = exB.cols ∧
      ∀ i < exA.rows, ∀ j < exB.cols, C.data i j = (naiveCore exA exB optPlain).data i j :=
  naive_mpi_eq_sequential 2 exA exB optPlain (by decide) (by decide) (by decide)

/-- `Matrix::size()` returns `rows_` (`src/include/matrix.hpp` line 56). -/
def Matrix.size (M : Matrix) : ℕ := M.rows

namespace strassen

/-- `strassen::openmp` of `src/algo/strassen_omp.cpp` (lines 103-110): the
square-and-equal-size guard, then `strassen_recursive_omp`. -/
def openmp (A B : Matrix) (opt : OptimizationOptions) (num_threads : ℕ) :
    Except MatmulError Matrix :=
  if A.rows ≠ A.cols ∨ B.rows ≠ B.cols ∨ A.size ≠ B.size then .error .NonSquareInput
  else .ok (strassenGo A.rows A B opt num_threads)

/-- Modelled from the spec: `strassen::sequential` is declared in
`src/include/algorithms.hpp` and called from `src/src/main.cpp` and
`src/algo/strassen_mpi.cpp`, but its definition is not among the sources.
Spec §4.4: the Strassen family requires square equal-size operands (else
NonSquareInput) and runs the same seven-product recursion with the naive
base case at the matching parallelism tier, so its computed values are
those of the recursion. -/
def sequential (A B : Matrix) (opt : OptimizationOptions) : Except MatmulError Matrix :=
  if A.rows ≠ A.cols ∨ B.rows ≠ B.cols ∨ A.size ≠ B.size then .error .NonSquareInput
  else .ok (strassenGo A.rows A B opt 1)

/-- `strassen::mpi` of `src/algo/strassen_mpi.cpp`: the square guard, the
naive row partition of `A`, per-rank local compute — sequential Strassen
when the local slice is square (`local_rows == n`), the naive loops
otherwise — and the all-gather. -/
def mpi (worldSize : ℕ) (A B : Matrix) (opt : OptimizationOptions) :
    Except MatmulError Matrix :=
  if A.rows ≠ A.cols ∨ B.rows ≠ B.cols ∨ A.size ≠ B.size then .error .NonSquareInput
  else .ok (gatherSlices A.rows A.rows worldSize
    (fun r => if local_rows A.rows worldSize r = A.rows
      then strassenGo (local_rows A.rows worldSize r) (localSliceA A worldSize r) B opt 1
      else naiveCore (localSliceA A worldSize r) B opt))

/-- `strassen::hybrid` of `src/algo/strassen_hybrid.cpp`: as `strassen::mpi`
with the OpenMP variants doing the local compute (same computed values). -/
def hybrid (worldSize : ℕ) (A B : Matrix) (opt : OptimizationOptions)
    (num_threads : ℕ) : Except MatmulError Matrix :=
  if A.rows ≠ A.cols ∨ B.rows ≠ B.cols ∨ A.size ≠ B.size then .error .NonSquareInput
  else .ok (gatherSlices A.rows A.rows worldSize
    (fun r => if local_rows A.rows worldSize r = A.rows
      then strassenGo (local_rows A.rows worldSize r) (localSliceA A worldSize r) B opt
        num_threads
      else naiveCore (localSliceA A worldSize r) B opt))

end strassen

/-- C1: on square equal-size operands (any `n ≥ 1`), the Strassen multiply
returns exactly the triple-loop naive product, entry for entry, under exact
rational arithmetic. -/
theorem strassen_eq_naive (A B : Matrix) (opt : OptimizationOptions) (nt n : ℕ)
    (hA1 : A.rows = n) (hA2 : A.cols = n) (hB1 : B.rows = n) (hB2 : B.cols = n)
    (hn : 1 ≤ n) (hbs : 1 ≤ opt.block_size) :
    ∃ C, strassen.openmp A B opt nt = .ok C ∧
      C.rows = n ∧ C.cols = n ∧
      ∀ i < n, ∀ j < n, C.data i j = (mulIJK A B).data i j := by
  subst hA1
  have hs := strassenGo_spec (A.rows + 3 * (A.rows % 2)) A.rows A B opt nt
    (le_refl _) rfl hA2 hB1 hB2 hbs
  refine ⟨strassenGo A.rows A B opt nt, ?_, hs.1, hs.2.1, ?_⟩
  · rw [strassen.openmp, if_neg]
    rintro (h | h | h)
    · exact h hA2.symm
    · exact h (hB1.trans hB2.symm)
    · exact h hB1.symm
  · intro i hi j hj
    rw [hs.2.2 i hi j hj,
      show (mulIJK A B).data i j = dotSum A B i j from dotIJK_eq_dotSum A B i j,
      dotSum, hA2]

theorem strassen_eq_naive_witness :
    ∃ C, strassen.openmp exS exS optPlain 4 = .ok C ∧
      C.rows = 3 ∧ C.cols = 3 ∧
      ∀ i < 3, ∀ j < 3, C.data i j = (mulIJK exS exS).data i j :=
  strassen_eq_naive exS exS optPlain 4 3 rfl rfl rfl rfl (by decide) (by decide)

/-- `struct ComparisonResult` of `src/include/matrix.hpp`.  The source's
`rms_error` stores `sqrt(sum_squared_error / num_elements)`; rationals have
no square root, so the field here records the radicand
(`sum_squared_error / num_elements`), which is zero exactly when the
source's `rms_error` is. -/
structure ComparisonResult where
  all_close : Bool
  max_abs_error : ℚ
  mean_abs_error : ℚ
  max_rel_error : ℚ
  mean_rel_error : ℚ
  rms_error_sq : ℚ
  num_elements : ℕ
  num_failures : ℕ
  failure_rate : ℚ
  worst_row : ℤ
  worst_col : ℤ
  worst_value_this : ℚ
  worst_value_other : ℚ
  abs_tolerance : ℚ
  rel_tolerance : ℚ
  deriving DecidableEq, Repr

/-- The loop state of `Matrix::compare` (`src/src/matrix.cpp` lines
207-284): the result under construction plus the running error sums. -/
structure CompareState where
  res : ComparisonResult
  sum_abs_error : ℚ
  sum_rel_error : ℚ
  sum_squared_error : ℚ

/-- The zero-initialized `ComparisonResult` of `Matrix::compare`
(lines 208-222): tolerances recorded, statistics zeroed, worst location at
the `-1` sentinel, `all_close = true`. -/
def compareInit (abs_tol rel_tol : ℚ) : ComparisonResult :=
  { all_close := true, max_abs_error := 0, mean_abs_error := 0, max_rel_error := 0,
    mean_rel_error := 0, rms_error_sq := 0, num_elements := 0, num_failures := 0,
    failure_rate := 0, worst_row := -1, worst_col := -1, worst_value_this := 0,
    worst_value_other := 0, abs_tolerance := abs_tol, rel_tolerance := rel_tol }

/-- One iteration of the element loop of `Matrix::compare`
(lines 236-273): the combined absolute+relative tolerance check, the error
accumulations, and the strict-`<` maximum trackers. -/
def compareStep (A B : Matrix) (abs_tol rel_tol : ℚ) (s : CompareState) (i j : ℕ) :
    CompareState :=
  let val_this := A.data i j
  let val_other := B.data i j
  let abs_error := |val_this - val_other|
  let max_val := max |val_this| |val_other|
  let rel_error := if 0 < max_val then abs_error / max_val else 0
  let tolerance := max abs_tol (rel_tol * max_val)
  let res1 :=
    if tolerance < abs_error then
      { s.res with all_close := false, num_failures := s.res.num_failures + 1 }
    else s.res
  let res2 :=
    if res1.max_abs_error < abs_error then
      { res1 with
        max_abs_error := abs_error
        worst_row := (i : ℤ)
        worst_col := (j : ℤ)
        worst_value_this := val_this
        worst_value_other := val_other }
    else res1
  let res3 :=
    if res2.max_rel_error < rel_error then { res2 with max_rel_error := rel_error }
    else res2
  { res := res3,
    sum_abs_error := s.sum_abs_error + abs_error,
    sum_rel_error := s.sum_rel_error + rel_error,
    sum_squared_error := s.sum_squared_error + abs_error * abs_error }

/-- `Matrix::compare` (`src/src/matrix.cpp` lines 207-284): shape mismatch
yields the initial record with `all_close = false`; otherwise the row-major
element loop runs and the means are derived from the sums. -/
def Matrix.compare (A B : Matrix) (abs_tol rel_tol : ℚ) : ComparisonResult :=
  if A.rows ≠ B.rows ∨ A.cols ≠ B.cols then
    { compareInit abs_tol rel_tol with all_close := false }
  else
    let s := (List.range A.rows).foldl
      (fun s i => (List.range A.cols).foldl
        (fun s j => compareStep A B abs_tol rel_tol s i j) s)
      ⟨{ compareInit abs_tol rel_tol with num_elements := A.rows * A.cols }, 0, 0, 0⟩
    if 0 < s.res.num_elements then
      { s.res with
        mean_abs_error := s.sum_abs_error / (s.res.num_elements : ℚ),
        mean_rel_error := s.sum_rel_error / (s.res.num_elements : ℚ),
        rms_error_sq := s.sum_squared_error / (s.res.num_elements : ℚ),
        failure_rate := 100 * (s.res.num_failures : ℚ) / (s.res.num_elements : ℚ) }
    else s.res

/-- The element positions of the comparison loop over the given row list, in
loop order. -/
def cellsOf (is : List ℕ) (cols : ℕ) : List (ℕ × ℕ) :=
  match is with
  | [] => []
  | i :: is => ((List.range cols).map (fun j => (i, j))) ++ cellsOf is cols

/-- All positions of an `rows × cols` matrix in row-major order. -/
def cells (rows cols : ℕ) : List (ℕ × ℕ) := cellsOf (List.range rows) cols

/-- Absolute error of one element pair. -/
def absErr (A B : Matrix) (c : ℕ × ℕ) : ℚ := |A.data c.1 c.2 - B.data c.1 c.2|

/-- Relative scale `max(|a|, |b|)` of one element pair. -/
def relScale (A B : Matrix) (c : ℕ × ℕ) : ℚ := max |A.data c.1 c.2| |B.data c.1 c.2|

/-- Relative error of one element pair (zero at zero scale). -/
def relErr (A B : Matrix) (c : ℕ × ℕ) : ℚ :=
  if 0 < relScale A B c then absErr A B c / relScale A B c else 0

/-- Element failure: absolute error exceeds `max(absTol, relTol·scale)`. -/
def cellFails (A B : Matrix) (abs_tol rel_tol : ℚ) (c : ℕ × ℕ) : Bool :=
  decide (max abs_tol (rel_tol * relScale A B c) < absErr A B c)

/-- Running maximum (starting at 0) of a quantity over a cell list. -/
def maxOver (g : ℕ × ℕ → ℚ) (l : List (ℕ × ℕ)) : ℚ :=
  l.foldl (fun m c => max m (g c)) 0

theorem foldl_cellsOf {α : Type} (f : α → ℕ × ℕ → α) (cols : ℕ) :
    ∀ (is : List ℕ) (s : α),
      (cellsOf is cols).foldl f s
        = is.foldl (fun s i => (List.range cols).foldl (fun s j => f s (i, j)) s) s := by
  intro is
  induction is with
  | nil => intro s; rfl
  | cons i is ih =>
    intro s
    rw [cellsOf, List.foldl_append, List.foldl_map, ih]
    rfl

theorem mem_cellsOf {cols : ℕ} {c : ℕ × ℕ} :
    ∀ {is : List ℕ}, c ∈ cellsOf is cols ↔ c.1 ∈ is ∧ c.2 < cols := by
  obtain ⟨a, b⟩ := c
  intro is
  induction is with
  | nil => simp [cellsOf]
  | cons i is ih =>
    rw [cellsOf, List.mem_append, ih]
    constructor
    · rintro (h | ⟨h1, h2⟩)
      · obtain ⟨j, hj, hje⟩ := List.mem_map.mp h
        cases hje
        exact ⟨List.mem_cons_self _ _, List.mem_range.mp hj⟩
      · exact ⟨List.mem_cons_of_mem _ h1, h2⟩
    · rintro ⟨h1, h2⟩
      rcases List.mem_cons.mp h1 with rfl | h
      · exact Or.inl (List.mem_map.mpr ⟨b, List.mem_range.mpr h2, rfl⟩)
      · exact Or.inr ⟨h, h2⟩

theorem mem_cells {rows cols : ℕ} {c : ℕ × ℕ} :
    c ∈ cells rows cols ↔ c.1 < rows ∧ c.2 < cols := by
  rw [cells, mem_cellsOf, List.mem_range]

theorem le_foldl_max (g : ℕ × ℕ → ℚ) :
    ∀ (l : List (ℕ × ℕ)) (m : ℚ), m ≤ l.foldl (fun m c => max m (g c)) m := by
  intro l
  induction l with
  | nil => intro m; exact le_refl m
  | cons c l ih => intro m; exact le_trans (le_max_left m (g c)) (ih _)

theorem maxOver_nonneg (g : ℕ × ℕ → ℚ) (l : List (ℕ × ℕ)) : 0 ≤ maxOver g l :=
  le_foldl_max g l 0

theorem le_maxOver_of_mem (g : ℕ × ℕ → ℚ) :
    ∀ (l : List (ℕ × ℕ)) (m : ℚ) (c : ℕ × ℕ), c ∈ l →
      g c ≤ l.foldl (fun m c => max m (g c)) m := by
  intro l
  induction l with
  | nil => intro m c h; exact absurd h (List.not_mem_nil c)
  | cons a l ih =>
    intro m c h
    rcases List.mem_cons.mp h with rfl | h
    · exact le_trans (le_max_right m (g c)) (le_foldl_max g l _)
    · exact ih _ c h

theorem maxOver_append_single (g : ℕ × ℕ → ℚ) (l : List (ℕ × ℕ)) (c : ℕ × ℕ) :
    maxOver g (l ++ [c]) = max (maxOver g l) (g c) := by
  rw [maxOver, List.foldl_append]
  rfl

theorem maxOver_attained (g : ℕ × ℕ → ℚ) (l : List (ℕ × ℕ)) :
    maxOver g l = 0 ∨ ∃ c ∈ l, g c = maxOver g l := by
  induction l using List.reverseRecOn with
  | nil => exact Or.inl rfl
  | append_singleton l c ih =>
    rw [maxOver_append_single]
    rcases le_total (g c) (maxOver g l) with h | h
    · rw [max_eq_left h]
      rcases ih with h0 | ⟨c0, hc0, he⟩
      · exact Or.inl h0
      · exact Or.inr ⟨c0, List.mem_append_left _ hc0, he⟩
    · rw [max_eq_right h]
      exact Or.inr ⟨c, List.mem_append_right _ (List.mem_singleton_self c), rfl⟩

theorem find?_append_none {α : Type} (p : α → Bool) :
    ∀ (l₁ l₂ : List α), l₁.find? p = none → (l₁ ++ l₂).find? p = l₂.find? p := by
  intro l₁ l₂
  induction l₁ with
  | nil => intro _; rfl
  | cons a l ih =>
    intro h
    cases hpa : p a with
    | true => rw [List.find?_cons_of_pos _ hpa] at h; exact absurd h (by simp)
    | false =>
      rw [List.find?_cons_of_neg _ (by simp [hpa])] at h
      rw [List.cons_append, List.find?_cons_of_neg _ (by simp [hpa])]
      exact ih h

theorem find?_append_some {α : Type} (p : α → Bool) :
    ∀ (l₁ l₂ : List α) (a : α), l₁.find? p = some a → (l₁ ++ l₂).find? p = some a := by
  intro l₁ l₂
  induction l₁ with
  | nil => intro a h; exact absurd h (by simp)
  | cons b l ih =>
    intro a h
    cases hpb : p b with
    | true =>
      rw [List.find?_cons_of_pos _ hpb] at h
      rw [List.cons_append, List.find?_cons_of_pos _ hpb]
      exact h
    | false =>
      rw [List.find?_cons_of_neg _ (by simp [hpb])] at h
      rw [List.cons_append, List.find?_cons_of_neg _ (by simp [hpb])]
      exact ih a h

/-- The element loop of `Matrix::compare` as a fold over a cell list,
starting from the zero-initialized result with `num_elements` preset. -/
def compareRun (A B : Matrix) (abs_tol rel_tol : ℚ) (N : ℕ) (l : List (ℕ × ℕ)) :
    CompareState :=
  l.foldl (fun s c => compareStep A B abs_tol rel_tol s c.1 c.2)
    ⟨{ compareInit abs_tol rel_tol with num_elements := N }, 0, 0, 0⟩

/-- Field-level effect of one comparison step. -/
theorem compareStep_spec (A B : Matrix) (abs_tol rel_tol : ℚ) (s : CompareState)
    (c : ℕ × ℕ) :
    ((compareStep A B abs_tol rel_tol s c.1 c.2).res.num_failures
        = s.res.num_failures
          + (if max abs_tol (rel_tol * relScale A B c) < absErr A B c then 1 else 0)) ∧
    ((compareStep A B abs_tol rel_tol s c.1 c.2).res.all_close
        = (if max abs_tol (rel_tol * relScale A B c) < absErr A B c then false
           else s.res.all_close)) ∧
    ((compareStep A B abs_tol rel_tol s c.1 c.2).res.max_abs_error
        = max s.res.max_abs_error (absErr A B c)) ∧
    ((compareStep A B abs_tol rel_tol s c.1 c.2).res.max_rel_error
        = max s.res.max_rel_error (relErr A B c)) ∧
    (s.res.max_abs_error < absErr A B c →
      (compareStep A B abs_tol rel_tol s c.1 c.2).res.worst_row = (c.1 : ℤ) ∧
      (compareStep A B abs_tol rel_tol s c.1 c.2).res.worst_col = (c.2 : ℤ) ∧
      (compareStep A B abs_tol rel_tol s c.1 c.2).res.worst_value_this = A.data c.1 c.2 ∧
      (compareStep A B abs_tol rel_tol s c.1 c.2).res.worst_value_other = B.data c.1 c.2) ∧
    (¬ s.res.max_abs_error < absErr A B c →
      (compareStep A B abs_tol rel_tol s c.1 c.2).res.worst_row = s.res.worst_row ∧
      (compareStep A B abs_tol rel_tol s c.1 c.2).res.worst_col = s.res.worst_col ∧
      (compareStep A B abs_tol rel_tol s c.1 c.2).res.worst_value_this
        = s.res.worst_value_this ∧
      (compareStep A B abs_tol rel_tol s c.1 c.2).res.worst_value_other
        = s.res.worst_value_other) ∧
    ((compareStep A B abs_tol rel_tol s c.1 c.2).res.num_elements = s.res.num_elements) ∧
    ((compareStep A B abs_tol rel_tol s c.1 c.2).res.abs_tolerance = s.res.abs_tolerance) ∧
    ((compareStep A B abs_tol rel_tol s c.1 c.2).res.rel_tolerance = s.res.rel_tolerance) ∧
    ((compareStep A B abs_tol rel_tol s c.1 c.2).res.mean_abs_error = s.res.mean_abs_error) ∧
    ((compareStep A B abs_tol rel_tol s c.1 c.2).res.mean_rel_error = s.res.mean_rel_error) ∧
    ((compareStep A B abs_tol rel_tol s c.1 c.2).res.rms_error_sq = s.res.rms_error_sq) ∧
    ((compareStep A B abs_tol rel_tol s c.1 c.2).res.failure_rate = s.res.failure_rate) := by
  simp only [compareStep, absErr, relScale, relErr]
  split_ifs <;>
    and_intros <;>
    first
    | rfl
    | (intro hlt; and_intros <;> rfl)
    | (intro hlt; exact absurd hlt (by assumption))
    | (intro hnlt; exact absurd (by assumption) hnlt)
    | exact (max_eq_right (le_of_lt (by assumption))).symm
    | exact (max_eq_left (not_lt.mp (by assumption))).symm

/-- Invariant of the element loop of `Matrix::compare` over any processed
cell prefix: failure count, pass flag, both running maxima, and the
first-occurrence worst-element tracker. -/
theorem compareRun_inv (A B : Matrix) (abs_tol rel_tol : ℚ) (N : ℕ) :
    ∀ l : List (ℕ × ℕ),
      ((compareRun A B abs_tol rel_tol N l).res.num_failures
          = l.countP (cellFails A B abs_tol rel_tol)) ∧
      ((compareRun A B abs_tol rel_tol N l).res.all_close = true ↔
          l.countP (cellFails A B abs_tol rel_tol) = 0) ∧
      ((compareRun A B abs_tol rel_tol N l).res.max_abs_error
          = maxOver (absErr A B) l) ∧
      ((compareRun A B abs_tol rel_tol N l).res.max_rel_error
          = maxOver (relErr A B) l) ∧
      (if maxOver (absErr A B) l = 0 then
          (compareRun A B abs_tol rel_tol N l).res.worst_row = -1 ∧
          (compareRun A B abs_tol rel_tol N l).res.worst_col = -1 ∧
          (compareRun A B abs_tol rel_tol N l).res.worst_value_this = 0 ∧
          (compareRun A B abs_tol rel_tol N l).res.worst_value_other = 0
        else ∃ c : ℕ × ℕ,
          l.find? (fun x => decide (absErr A B x = maxOver (absErr A B) l)) = some c ∧
          (compareRun A B abs_tol rel_tol N l).res.worst_row = (c.1 : ℤ) ∧
          (compareRun A B abs_tol rel_tol N l).res.worst_col = (c.2 : ℤ) ∧
          (compareRun A B abs_tol rel_tol N l).res.worst_value_this = A.data c.1 c.2 ∧
          (compareRun A B abs_tol rel_tol N l).res.worst_value_other = B.data c.1 c.2) ∧
      ((compareRun A B abs_tol rel_tol N l).res.num_elements = N) ∧
      ((compareRun A B abs_tol rel_tol N l).res.abs_tolerance = abs_tol) ∧
      ((compareRun A B abs_tol rel_tol N l).res.rel_tolerance = rel_tol) ∧
      ((compareRun A B abs_tol rel_tol N l).res.mean_abs_error = 0) ∧
      ((compareRun A B abs_tol rel_tol N l).res.mean_rel_error = 0) ∧
      ((compareRun A B abs_tol rel_tol N l).res.rms_error_sq = 0) ∧
      ((compareRun A B abs_tol rel_tol N l).res.failure_rate = 0) := by
  intro l
  induction l using List.reverseRecOn with
  | nil =>
    refine ⟨rfl, ⟨fun _ => rfl, fun _ => rfl⟩, rfl, rfl, ?_, rfl, rfl, rfl,
      rfl, rfl, rfl, rfl⟩
    rw [if_pos (show maxOver (absErr A B) [] = 0 from rfl)]
    exact ⟨rfl, rfl, rfl, rfl⟩
  | append_singleton l c ih =>
    have hrun : compareRun A B abs_tol rel_tol N (l ++ [c])
        = compareStep A B abs_tol rel_tol (compareRun A B abs_tol rel_tol N l) c.1 c.2 := by
      rw [compareRun, compareRun, List.foldl_append]
      rfl
    obtain ⟨ih1, ih2, ih3, ih4, ih5, ih6, ih7, ih8, ih9, ih10, ih11, ih12⟩ := ih
    obtain ⟨hs1, hs2, hs3, hs4, hs5, hs6, hs7, hs8, hs9, hs10, hs11, hs12, hs13⟩ :=
      compareStep_spec A B abs_tol rel_tol (compareRun A B abs_tol rel_tol N l) c
    rw [hrun]
    have hfails : (if max abs_tol (rel_tol * relScale A B c) < absErr A B c
        then (1 : ℕ) else 0) = (if cellFails A B abs_tol rel_tol c then 1 else 0) := by
      simp [cellFails]
    refine ⟨?_, ?_, ?_, ?_, ?_, hs7.trans ih6, hs8.trans ih7, hs9.trans ih8,
      hs10.trans ih9, hs11.trans ih10, hs12.trans ih11, hs13.trans ih12⟩
    · rw [hs1, ih1, hfails, List.countP_append]
      simp [List.countP_cons]
    · rw [hs2, List.countP_append]
      by_cases h : max abs_tol (rel_tol * relScale A B c) < absErr A B c
      · rw [if_pos h]
        have hc : cellFails A B abs_tol rel_tol c = true := decide_eq_true h
        simp [List.countP_cons, hc]
      · rw [if_neg h]
        have hc : cellFails A B abs_tol rel_tol c = false := decide_eq_false h
        simp [List.countP_cons, hc, ih2]
    · rw [hs3, ih3, maxOver_append_single]
    · rw [hs4, ih4, maxOver_append_single]
    · rw [maxOver_append_single]
      by_cases hgt : maxOver (absErr A B) l < absErr A B c
      · rw [max_eq_right (le_of_lt hgt)]
        have hpos : ¬ absErr A B c = 0 := by
          intro h0
          rw [h0] at hgt
          exact absurd hgt (not_lt.mpr (maxOver_nonneg (absErr A B) l))
        rw [if_neg hpos]
        have hwf := hs5 (by rw [ih3]; exact hgt)
        refine ⟨c, ?_, hwf.1, hwf.2.1, hwf.2.2.1, hwf.2.2.2⟩
        have hnone : l.find? (fun x => decide (absErr A B x = absErr A B c)) = none := by
          rw [List.find?_eq_none]
          intro x hx
          simp only [decide_eq_true_eq]
          intro he
          have hle := le_maxOver_of_mem (absErr A B) l 0 x hx
          rw [he] at hle
          exact absurd hle (not_le.mpr hgt)
        rw [find?_append_none _ _ _ hnone, List.find?_cons_of_pos _ (by simp)]
      · rw [max_eq_left (not_lt.mp hgt)]
        have hwu := hs6 (by rw [ih3]; exact hgt)
        by_cases h0 : maxOver (absErr A B) l = 0
        · rw [if_pos h0]
          rw [if_pos h0] at ih5
          exact ⟨hwu.1.trans ih5.1, hwu.2.1.trans ih5.2.1,
            hwu.2.2.1.trans ih5.2.2.1, hwu.2.2.2.trans ih5.2.2.2⟩
        · rw [if_neg h0]
          rw [if_neg h0] at ih5
          obtain ⟨c0, hfind, hw1, hw2, hw3, hw4⟩ := ih5
          exact ⟨c0, find?_append_some _ _ _ _ hfind, hwu.1.trans hw1,
            hwu.2.1.trans hw2, hwu.2.2.1.trans hw3, hwu.2.2.2.trans hw4⟩

/-- The finalization of `Matrix::compare` (means/RMS/failure-rate) leaves
every other field of the loop state unchanged. -/
theorem compare_proj (A B : Matrix) (abs_tol rel_tol : ℚ)
    (hr : A.rows = B.rows) (hc : A.cols = B.cols) :
    ((Matrix.compare A B abs_tol rel_tol).num_failures
        = (compareRun A B abs_tol rel_tol (A.rows * A.cols)
            (cells A.rows A.cols)).res.num_failures) ∧
    ((Matrix.compare A B abs_tol rel_tol).all_close
        = (compareRun A B abs_tol rel_tol (A.rows * A.cols)
            (cells A.rows A.cols)).res.all_close) ∧
    ((Matrix.compare A B abs_tol rel_tol).max_abs_error
        = (compareRun A B abs_tol rel_tol (A.rows * A.cols)
            (cells A.rows A.cols)).res.max_abs_error) ∧
    ((Matrix.compare A B abs_tol rel_tol).max_rel_error
        = (compareRun A B abs_tol rel_tol (A.rows * A.cols)
            (cells A.rows A.cols)).res.max_rel_error) ∧
    ((Matrix.compare A B abs_tol rel_tol).worst_row
        = (compareRun A B abs_tol rel_tol (A.rows * A.cols)
            (cells A.rows A.cols)).res.worst_row) ∧
    ((Matrix.compare A B abs_tol rel_tol).worst_col
        = (compareRun A B abs_tol rel_tol (A.rows * A.cols)
            (cells A.rows A.cols)).res.worst_col) ∧
    ((Matrix.compare A B abs_tol rel_tol).worst_value_this
        = (compareRun A B abs_tol rel_tol (A.rows * A.cols)
            (cells A.rows A.cols)).res.worst_value_this) ∧
    ((Matrix.compare A B abs_tol rel_tol).worst_value_other
        = (compareRun A B abs_tol rel_tol (A.rows * A.cols)
            (cells A.rows A.cols)).res.worst_value_other) ∧
    ((Matrix.compare A B abs_tol rel_tol).num_elements
        = (compareRun A B abs_tol rel_tol (A.rows * A.cols)
            (cells A.rows A.cols)).res.num_elements) ∧
    ((Matrix.compare A B abs_tol rel_tol).abs_tolerance
        = (compareRun A B abs_tol rel_tol (A.rows * A.cols)
            (cells A.rows A.cols)).res.abs_tolerance) ∧
    ((Matrix.compare A B abs_tol rel_tol).rel_tolerance
        = (compareRun A B abs_tol rel_tol (A.rows * A.cols)
            (cells A.rows A.cols)).res.rel_tolerance) := by
  rw [Matrix.compare, if_neg (fun hor => hor.elim (fun h => h hr) (fun h => h hc))]
  have hfold : (List.range A.rows).foldl
      (fun s i => (List.range A.cols).foldl
        (fun s j => compareStep A B abs_tol rel_tol s i j) s)
      ⟨{ compareInit abs_tol rel_tol with num_elements := A.rows * A.cols }, 0, 0, 0⟩
      = compareRun A B abs_tol rel_tol (A.rows * A.cols) (cells A.rows A.cols) := by
    rw [compareRun, cells, foldl_cellsOf]
  rw [hfold]
  by_cases hpos : 0 < (compareRun A B abs_tol rel_tol (A.rows * A.cols)
      (cells A.rows A.cols)).res.num_elements
  · rw [if_pos hpos]
    exact ⟨rfl, rfl, rfl, rfl, rfl, rfl, rfl, rfl, rfl, rfl, rfl⟩
  · rw [if_neg hpos]
    exact ⟨rfl, rfl, rfl, rfl, rfl, rfl, rfl, rfl, rfl, rfl, rfl⟩

theorem foldl_max_le (g : ℕ × ℕ → ℚ) :
    ∀ (l : List (ℕ × ℕ)) (m b : ℚ), m ≤ b → (∀ c ∈ l, g c ≤ b) →
      l.foldl (fun m c => max m (g c)) m ≤ b := by
  intro l
  induction l with
  | nil => intro m b hm _; exact hm
  | cons a l ih =>
    intro m b hm h
    exact ih _ b (max_le hm (h a (List.mem_cons_self a l)))
      (fun c hc => h c (List.mem_cons_of_mem a hc))

/-- C6: on equal-shaped inputs, `compare` counts exactly the elements whose
absolute error exceeds `max(absTol, relTol·max(|a|,|b|))`, passes iff that
count is zero, tracks the true maximum absolute error, records as worst
element the first (row-major) element attaining it, and tracks the maximum
relative error independently. -/
theorem compare_spec (A B : Matrix) (abs_tol rel_tol : ℚ)
    (hr : A.rows = B.rows) (hc : A.cols = B.cols)
    (hat : 0 < abs_tol) (hrt : 0 < rel_tol) :
    ((Matrix.compare A B abs_tol rel_tol).num_failures
        = (cells A.rows A.cols).countP (fun x =>
            decide (max abs_tol (rel_tol * max |A.data x.1 x.2| |B.data x.1 x.2|)
              < |A.data x.1 x.2 - B.data x.1 x.2|))) ∧
    ((Matrix.compare A B abs_tol rel_tol).all_close = true ↔
        (Matrix.compare A B abs_tol rel_tol).num_failures = 0) ∧
    (∀ x ∈ cells A.rows A.cols,
        |A.data x.1 x.2 - B.data x.1 x.2|
          ≤ (Matrix.compare A B abs_tol rel_tol).max_abs_error) ∧
    (0 < (Matrix.compare A B abs_tol rel_tol).max_abs_error →
        (cells A.rows A.cols).find? (fun x =>
            decide (|A.data x.1 x.2 - B.data x.1 x.2|
              = (Matrix.compare A B abs_tol rel_tol).max_abs_error))
          = some ((Matrix.compare A B abs_tol rel_tol).worst_row.toNat,
              (Matrix.compare A B abs_tol rel_tol).worst_col.toNat)) ∧
    (∀ x ∈ cells A.rows A.cols,
        relErr A B x ≤ (Matrix.compare A B abs_tol rel_tol).max_rel_error) ∧
    ((Matrix.compare A B abs_tol rel_tol).max_rel_error = 0 ∨
      ∃ x ∈ cells A.rows A.cols,
        relErr A B x = (Matrix.compare A B abs_tol rel_tol).max_rel_error) := by
  obtain ⟨hp1, hp2, hp3, hp4, hp5, hp6, _, _, _, _, _⟩ :=
    compare_proj A B abs_tol rel_tol hr hc
  obtain ⟨hi1, hi2, hi3, hi4, hi5, _, _, _, _, _, _, _⟩ :=
    compareRun_inv A B abs_tol rel_tol (A.rows * A.cols) (cells A.rows A.cols)
  refine ⟨?_, ?_, ?_, ?_, ?_, ?_⟩
  · rw [hp1, hi1]
    rfl
  · rw [hp2, hp1, hi1]
    exact hi2
  · intro x hx
    rw [hp3, hi3]
    exact le_maxOver_of_mem (absErr A B) _ 0 x hx
  · intro hpos
    rw [hp3, hi3] at hpos ⊢
    rw [if_neg (ne_of_gt hpos)] at hi5
    obtain ⟨c0, hfind, hw1, hw2, _, _⟩ := hi5
    rw [hp5, hp6, hw1, hw2, Int.toNat_natCast, Int.toNat_natCast]
    exact hfind
  · intro x hx
    rw [hp4, hi4]
    exact le_maxOver_of_mem (relErr A B) _ 0 x hx
  · rw [hp4, hi4]
    exact maxOver_attained (relErr A B) (cells A.rows A.cols)

/-- Concrete second 3×3 operand for the comparison witnesses. -/
def exT : Matrix := ⟨3, 3, fun i j => (i : ℚ) * j + 1⟩

theorem compare_spec_witness :
    ((Matrix.compare exS exT (1 / 100) (1 / 1000)).num_failures
        = (cells exS.rows exS.cols).countP (fun x =>
            decide (max (1 / 100) ((1 / 1000) * max |exS.data x.1 x.2| |exT.data x.1 x.2|)
              < |exS.data x.1 x.2 - exT.data x.1 x.2|))) ∧
    ((Matrix.compare exS exT (1 / 100) (1 / 1000)).all_close = true ↔
        (Matrix.compare exS exT (1 / 100) (1 / 1000)).num_failures = 0) ∧
    (∀ x ∈ cells exS.rows exS.cols,
        |exS.data x.1 x.2 - exT.data x.1 x.2|
          ≤ (Matrix.compare exS exT (1 / 100) (1 / 1000)).max_abs_error) ∧
    (0 < (Matrix.compare exS exT (1 / 100) (1 / 1000)).max_abs_error →
        (cells exS.rows exS.cols).find? (fun x =>
            decide (|exS.data x.1 x.2 - exT.data x.1 x.2|
              = (Matrix.compare exS exT (1 / 100) (1 / 1000)).max_abs_error))
          = some ((Matrix.compare exS exT (1 / 100) (1 / 1000)).worst_row.toNat,
              (Matrix.compare exS exT (1 / 100) (1 / 1000)).worst_col.toNat)) ∧
    (∀ x ∈ cells exS.rows exS.cols,
        relErr exS exT x ≤ (Matrix.compare exS exT (1 / 100) (1 / 1000)).max_rel_error) ∧
    ((Matrix.compare exS exT (1 / 100) (1 / 1000)).max_rel_error = 0 ∨
      ∃ x ∈ cells exS.rows exS.cols,
        relErr exS exT x = (Matrix.compare exS exT (1 / 100) (1 / 1000)).max_rel_error) :=
  compare_spec exS exT (1 / 100) (1 / 1000) rfl rfl (by norm_num) (by norm_num)

/-- C7: on a shape mismatch `compare` raises nothing and returns the failing
result with zeroed statistics, the `-1` worst-location sentinel and the
given tolerances recorded. -/
theorem compare_mismatch (A B : Matrix) (abs_tol rel_tol : ℚ)
    (h : A.rows ≠ B.rows ∨ A.cols ≠ B.cols) :
    Matrix.compare A B abs_tol rel_tol =
      { all_close := false, max_abs_error := 0, mean_abs_error := 0, max_rel_error := 0,
        mean_rel_error := 0, rms_error_sq := 0, num_elements := 0, num_failures := 0,
        failure_rate := 0, worst_row := -1, worst_col := -1, worst_value_this := 0,
        worst_value_other := 0, abs_tolerance := abs_tol, rel_tolerance := rel_tol } := by
  rw [Matrix.compare, if_pos h]
  rfl

theorem compare_mismatch_witness :
    Matrix.compare exA exS (1 / 100) (1 / 1000) =
      { all_close := false, max_abs_error := 0, mean_abs_error := 0, max_rel_error := 0,
        mean_rel_error := 0, rms_error_sq := 0, num_elements := 0, num_failures := 0,
        failure_rate := 0, worst_row := -1, worst_col := -1, worst_value_this := 0,
        worst_value_other := 0, abs_tolerance := 1 / 100, rel_tolerance := 1 / 1000 } :=
  compare_mismatch exA exS (1 / 100) (1 / 1000) (Or.inl (by decide))

/-- C10: comparing two equal-shaped matrices with pairwise-equal elements
(e.g. a matrix with itself) passes with zero maximum absolute error, zero
failures, and the worst-error location left at the `(-1, -1)` sentinel. -/
theorem compare_self (A B : Matrix) (abs_tol rel_tol : ℚ)
    (hr : A.rows = B.rows) (hc : A.cols = B.cols)
    (heq : ∀ i < A.rows, ∀ j < A.cols, A.data i j = B.data i j)
    (hat : 0 < abs_tol) (hrt : 0 < rel_tol) :
    (Matrix.compare A B abs_tol rel_tol).all_close = true ∧
    (Matrix.compare A B abs_tol rel_tol).max_abs_error = 0 ∧
    (Matrix.compare A B abs_tol rel_tol).num_failures = 0 ∧
    (Matrix.compare A B abs_tol rel_tol).worst_row = -1 ∧
    (Matrix.compare A B abs_tol rel_tol).worst_col = -1 := by
  obtain ⟨hp1, hp2, hp3, _, hp5, hp6, _, _, _, _, _⟩ :=
    compare_proj A B abs_tol rel_tol hr hc
  obtain ⟨hi1, hi2, hi3, _, hi5, _, _, _, _, _, _, _⟩ :=
    compareRun_inv A B abs_tol rel_tol (A.rows * A.cols) (cells A.rows A.cols)
  have habs : ∀ x ∈ cells A.rows A.cols, absErr A B x = 0 := by
    intro x hx
    obtain ⟨h1, h2⟩ := mem_cells.mp hx
    rw [absErr, heq x.1 h1 x.2 h2, sub_self, abs_zero]
  have hmax0 : maxOver (absErr A B) (cells A.rows A.cols) = 0 :=
    le_antisymm (foldl_max_le (absErr A B) _ 0 0 (le_refl 0)
      (fun c hc' => le_of_eq (habs c hc'))) (maxOver_nonneg _ _)
  have hcnt : (cells A.rows A.cols).countP (cellFails A B abs_tol rel_tol) = 0 := by
    rw [List.countP_eq_zero]
    intro x hx
    rw [cellFails, habs x hx]
    simp only [decide_eq_true_eq]
    exact not_lt.mpr (le_trans (le_of_lt hat) (le_max_left _ _))
  rw [if_pos hmax0] at hi5
  exact ⟨by rw [hp2]; exact hi2.mpr hcnt, by rw [hp3, hi3, hmax0],
    by rw [hp1, hi1, hcnt], by rw [hp5]; exact hi5.1, by rw [hp6]; exact hi5.2.1⟩

theorem compare_self_witness :
    (Matrix.compare exS exS (1 / 100000000) (1 / 100000)).all_close = true ∧
    (Matrix.compare exS exS (1 / 100000000) (1 / 100000)).max_abs_error = 0 ∧
    (Matrix.compare exS exS (1 / 100000000) (1 / 100000)).num_failures = 0 ∧
    (Matrix.compare exS exS (1 / 100000000) (1 / 100000)).worst_row = -1 ∧
    (Matrix.compare exS exS (1 / 100000000) (1 / 100000)).worst_col = -1 :=
  compare_self exS exS (1 / 100000000) (1 / 100000) rfl rfl
    (fun i _ j _ => rfl) (by norm_num) (by norm_num)

theorem partition_spec_witness :
    row_offset 10 3 0 = 0 ∧
    (∀ r, row_offset 10 3 (r + 1) = row_offset 10 3 r + local_rows 10 3 r) ∧
    (∑ r ∈ Finset.range 3, local_rows 10 3 r) = 10 ∧
    (∀ r s, r < s → row_offset 10 3 r + local_rows 10 3 r ≤ row_offset 10 3 s) ∧
    (∀ i < 10, ∃! r, r < 3 ∧ row_offset 10 3 r ≤ i ∧
      i < row_offset 10 3 r + local_rows 10 3 r) :=
  partition_spec 10 3 (by decide)

/-- `enum class Algorithm` of `src/include/config.hpp`. -/
inductive Algorithm where
  | NAIVE
  | STRASSEN
  | OPENBLAS
  deriving DecidableEq, Repr

/-- `enum class ExecutionMode` of `src/include/config.hpp`. -/
inductive ExecutionMode where
  | SEQUENTIAL
  | OPENMP
  | MPI
  | HYBRID
  deriving DecidableEq, Repr

/-- The fields of `struct Config` (`src/include/config.hpp`) consulted by
the dispatcher and the verification suite. -/
structure Config where
  algorithm : Algorithm
  mode : ExecutionMode
  optimization : OptimizationOptions
  num_threads : ℕ
  abs_tolerance : ℚ
  rel_tolerance : ℚ
  verify_algorithms : List Algorithm

/-- `openblas::multiply` of `src/algo/openblas_wrapper.cpp`: the dimension
guard, then `cblas_dgemm(CblasRowMajor, NoTrans, NoTrans, m, n, k, 1.0, A,
k, B, n, 0.0, C, n)` into the zero-initialized `m×n` result; the external
`C = 1·A·B + 0·C` call is embedded by its contract, the exact row-by-column
product. -/
def openblas.multiply (A B : Matrix) : Except MatmulError Matrix :=
  if A.cols ≠ B.rows then .error .DimensionMismatch
  else .ok (mulIJK A B)

/-- The dispatcher `matmul::multiply` of `src/src/main.cpp` (lines 25-58):
a switch on `config.algorithm`, then an inner switch on `config.mode` for
the naive and Strassen families; the `OPENBLAS` case returns
`openblas::multiply(A, B)` with no inner switch on the mode.  Every case of
both C++ switches returns, so the trailing
`throw std::runtime_error("Invalid algorithm/mode combination")` is
unreachable for the enums' values and the total match needs no fall-through
arm.  `P` is the ambient MPI world size consulted by the distributed
variants (the C++ reads it from `MPI_Comm_size`, not from `config`). -/
def multiply (P : ℕ) (A B : Matrix) (config : Config) : Except MatmulError Matrix :=
  match config.algorithm with
  | .NAIVE =>
    match config.mode with
    | .SEQUENTIAL => naive.sequential A B config.optimization
    | .OPENMP => naive.openmp A B config.optimization config.num_threads
    | .MPI => naive.mpi P A B config.optimization
    | .HYBRID => naive.hybrid P A B config.optimization config.num_threads
  | .STRASSEN =>
    match config.mode with
    | .SEQUENTIAL => strassen.sequential A B config.optimization
    | .OPENMP => strassen.openmp A B config.optimization config.num_threads
    | .MPI => strassen.mpi P A B config.optimization
    | .HYBRID => strassen.hybrid P A B config.optimization config.num_threads
  | .OPENBLAS => openblas.multiply A B

theorem multiply_error_cases (P : ℕ) (A B : Matrix) (config : Config)
    (e : MatmulError) (h : multiply P A B config = .error e) :
    e = .DimensionMismatch ∨ e = .NonSquareInput := by
  obtain ⟨alg, mode, opt, nt, at0, rt0, va⟩ := config
  cases alg <;> cases mode <;>
    simp only [multiply, naive.sequential, naive.openmp, naive.mpi, naive.hybrid,
      strassen.sequential, strassen.openmp, strassen.mpi, strassen.hybrid,
      openblas.multiply] at h <;>
    split_ifs at h <;>
    first
      | (injection h with h; exact Or.inl h.symm)
      | (injection h with h; exact Or.inr h.symm)
      | exact Except.noConfusion h

/-- C8 counterexample: the dispatcher invoked with the OpenBLAS algorithm
and the MPI execution mode — a pair the claim says has no registered
implementation — succeeds on a 3×3 input and in particular does not fail
with InvalidAlgorithmModeCombination. -/
theorem multiply_openblas_mpi_ok :
    multiply 2 exS exS ⟨.OPENBLAS, .MPI, optPlain, 4, 1/100000000, 1/100000, []⟩
        = .ok (mulIJK exS exS) ∧
    multiply 2 exS exS ⟨.OPENBLAS, .MPI, optPlain, 4, 1/100000000, 1/100000, []⟩
        ≠ .error .InvalidAlgorithmModeCombination :=
  ⟨rfl, fun h => Except.noConfusion h⟩

/-- C8: amended — the dispatcher never fails with
InvalidAlgorithmModeCombination (the inner switches cover every mode and
the throw is unreachable); the OpenBLAS algorithm ignores the execution
mode and always routes to the single OpenBLAS path. -/
theorem multiply_dispatch_spec (P : ℕ) (A B : Matrix) (config : Config) :
    multiply P A B config ≠ .error .InvalidAlgorithmModeCombination ∧
    (config.algorithm = .OPENBLAS → multiply P A B config = openblas.multiply A B) := by
  obtain ⟨alg, mode, opt, nt, at0, rt0, va⟩ := config
  refine ⟨fun h => ?_, fun halg => ?_⟩
  · rcases multiply_error_cases P A B _ _ h with h' | h' <;> cases h'
  · cases halg
    rfl

theorem multiply_dispatch_spec_witness :
    multiply 2 exS exS ⟨.OPENBLAS, .OPENMP, optPlain, 4, 1/100000000, 1/100000, []⟩
        ≠ .error .InvalidAlgorithmModeCombination ∧
    multiply 2 exS exS ⟨.OPENBLAS, .OPENMP, optPlain, 4, 1/100000000, 1/100000, []⟩
        = openblas.multiply exS exS :=
  have h := multiply_dispatch_spec 2 exS exS
    ⟨.OPENBLAS, .OPENMP, optPlain, 4, 1/100000000, 1/100000, []⟩
  ⟨h.1, h.2 rfl⟩

/-- The data `run_verification_suite` accumulates and reports
(`src/src/verification.cpp` lines 112-177): the per-algorithm results, the
pairwise comparison reports and the overall flag. -/
structure SuiteResult where
  results : List Matrix
  comparisons : List ComparisonResult
  all_passed : Bool

/-- The per-algorithm loop of `run_verification_suite`
(`src/src/verification.cpp` lines 117-138): each selected algorithm runs
once through the dispatcher on the same `A` and `B`, with the suite's
config and the algorithm swapped in (`algo_config.algorithm = algo`); a
thrown error propagates out of the suite. -/
def runAlgos (P : ℕ) (A B : Matrix) (config : Config) :
    List Algorithm → Except MatmulError (List Matrix)
  | [] => .ok []
  | a :: rest =>
    match multiply P A B { config with algorithm := a } with
    | .error e => .error e
    | .ok C =>
      match runAlgos P A B config rest with
      | .error e => .error e
      | .ok cs => .ok (C :: cs)

/-- The index pairs of the comparison double loop
(`src/src/verification.cpp` lines 147-159): for each `i` in order, `i`
against every later `j`, in order. -/
def listPairs {α : Type} : List α → List (α × α)
  | [] => []
  | x :: rest => rest.map (fun y => (x, y)) ++ listPairs rest

/-- `run_verification_suite` of `src/src/verification.cpp` (lines 86-180)
as run by rank 0: run every selected algorithm once, compare every
unordered pair of results with the suite tolerances, and fold the
`all_passed` flag over the comparisons exactly as the loop's
`if (!cmp.all_close) all_passed = false` does.  The function has no check
on the number of selected algorithms. -/
def run_verification_suite (P : ℕ) (A B : Matrix) (config : Config) :
    Except MatmulError SuiteResult :=
  match runAlgos P A B config config.verify_algorithms with
  | .error e => .error e
  | .ok results =>
      .ok ⟨results,
        (listPairs results).map
          (fun pr => pr.1.compare pr.2 config.abs_tolerance config.rel_tolerance),
        ((listPairs results).map
          (fun pr => pr.1.compare pr.2 config.abs_tolerance config.rel_tolerance)).foldl
          (fun acc c => acc && c.all_close) true⟩

theorem runAlgos_error_cases (P : ℕ) (A B : Matrix) (config : Config) :
    ∀ (l : List Algorithm) (e : MatmulError), runAlgos P A B config l = .error e →
      e = .DimensionMismatch ∨ e = .NonSquareInput := by
  intro l
  induction l with
  | nil => intro e h; exact Except.noConfusion h
  | cons a rest ih =>
    intro e h
    simp only [runAlgos] at h
    split at h
    next hm =>
      cases h
      exact multiply_error_cases P A B _ _ hm
    next C hm =>
      split at h
      next hr =>
        cases h
        exact ih _ hr
      next cs hr => exact Except.noConfusion h

theorem runAlgos_ok_length (P : ℕ) (A B : Matrix) (config : Config) :
    ∀ (l : List Algorithm) (rs : List Matrix), runAlgos P A B config l = .ok rs →
      rs.length = l.length := by
  intro l
  induction l with
  | nil =>
    intro rs h
    simp only [runAlgos] at h
    cases h
    rfl
  | cons a rest ih =>
    intro rs h
    simp only [runAlgos] at h
    split at h
    next hm => exact Except.noConfusion h
    next C hm =>
      split at h
      next hr => exact Except.noConfusion h
      next cs hr =>
        cases h
        simp only [List.length_cons, ih cs hr]

theorem listPairs_length {α : Type} :
    ∀ l : List α, 2 * (listPairs l).length = l.length * (l.length - 1)
  | [] => rfl
  | x :: rest => by
    have ih := listPairs_length rest
    simp only [listPairs, List.length_append, List.length_map, List.length_cons,
      Nat.add_sub_cancel]
    calc 2 * (rest.length + (listPairs rest).length)
        = 2 * rest.length + 2 * (listPairs rest).length := by ring
      _ = 2 * rest.length + rest.length * (rest.length - 1) := by rw [ih]
      _ = (rest.length + 1) * rest.length := by
          cases rest.length with
          | zero => rfl
          | succ n =>
            simp only [Nat.add_sub_cancel]
            ring

theorem foldl_and_eq {α : Type} (p : α → Bool) :
    ∀ (l : List α) (b : Bool), l.foldl (fun acc c => acc && p c) b = (b && l.all p)
  | [], b => by cases b <;> rfl
  | x :: l, b => by
    simp only [List.foldl_cons, List.all_cons, foldl_and_eq p l]
    cases b <;> cases p x <;> rfl

/-- C9 counterexample: the suite invoked with a single selected algorithm
does not fail with InsufficientSelection — it runs the one algorithm, makes
zero comparisons and reports an overall pass. -/
theorem suite_single_algorithm_ok :
    run_verification_suite 1 exS exS
        ⟨.NAIVE, .SEQUENTIAL, optPlain, 1, 1/100000000, 1/100000, [.NAIVE]⟩
        = .ok ⟨[naiveCore exS exS optPlain], [], true⟩ ∧
    run_verification_suite 1 exS exS
        ⟨.NAIVE, .SEQUENTIAL, optPlain, 1, 1/100000000, 1/100000, [.NAIVE]⟩
        ≠ .error .InsufficientSelection :=
  ⟨rfl, fun h => Except.noConfusion h⟩

/-- C9: amended — the suite never fails with InsufficientSelection (it has
no check on the selection size); when every dispatched run succeeds it ran
each selected algorithm exactly once, made one comparison per unordered
pair of results, passes overall iff every pairwise comparison passes, and
with fewer than two selected algorithms it makes no comparison and reports
an overall pass. -/
theorem run_verification_suite_spec (P : ℕ) (A B : Matrix) (config : Config) :
    run_verification_suite P A B config ≠ .error .InsufficientSelection ∧
    ∀ s, run_verification_suite P A B config = .ok s →
      s.results.length = config.verify_algorithms.length ∧
      2 * s.comparisons.length = s.results.length * (s.results.length - 1) ∧
      (s.all_passed = true ↔ ∀ c ∈ s.comparisons, c.all_close = true) ∧
      (config.verify_algorithms.length < 2 → s.comparisons = [] ∧ s.all_passed = true) := by
  constructor
  · intro h
    rw [run_verification_suite] at h
    split at h
    next e hr =>
      cases h
      rcases runAlgos_error_cases P A B config _ _ hr with h' | h' <;> cases h'
    next rs hr => exact Except.noConfusion h
  · intro s hs
    rw [run_verification_suite] at hs
    split at hs
    next e hr => exact Except.noConfusion hs
    next rs hr =>
      cases hs
      have hlen := runAlgos_ok_length P A B config _ rs hr
      refine ⟨hlen, ?_, ?_, ?_⟩
      · simp only [List.length_map]
        exact listPairs_length rs
      · rw [foldl_and_eq]
        simp only [Bool.true_and, List.all_eq_true]
      · intro hlt
        have hnil : listPairs rs = [] := by
          cases rs with
          | nil => rfl
          | cons x rest =>
            cases rest with
            | nil => rfl
            | cons y r2 =>
              exfalso
              simp only [List.length_cons] at hlen
              omega
        rw [hnil]
        exact ⟨rfl, rfl⟩

/-- A two-algorithm suite configuration for the C9 witness. -/
def suiteCfg : Config :=
  ⟨.NAIVE, .SEQUENTIAL, optPlain, 1, 1/100000000, 1/100000, [.NAIVE, .OPENBLAS]⟩

/-- The value `run_verification_suite` computes on `suiteCfg` (one naive
run, one OpenBLAS run, their single comparison). -/
def suiteOut : SuiteResult :=
  ⟨[naiveCore exS exS optPlain, mulIJK exS exS],
   [(naiveCore exS exS optPlain).compare (mulIJK exS exS) (1/100000000) (1/100000)],
   ((naiveCore exS exS optPlain).compare (mulIJK exS exS) (1/100000000)
     (1/100000)).all_close⟩

theorem run_verification_suite_spec_witness :
    suiteOut.results.length = suiteCfg.verify_algorithms.length ∧
    2 * suiteOut.comparisons.length = suiteOut.results.length * (suiteOut.results.length - 1) ∧
    (suiteOut.all_passed = true ↔ ∀ c ∈ suiteOut.comparisons, c.all_close = true) :=
  have h := (run_verification_suite_spec 1 exS exS suiteCfg).2 suiteOut rfl
  ⟨h.1, h.2.1, h.2.2.1⟩

end matmul
